import Mathlib

/-!
Verification of the coordinate-transform, grid-snapping, area-paint/validation
and URL-state-codec core of the Traplace map editor.

The JavaScript sources are shallowly embedded:

* JS strings are modelled as `List Char` (`JStr`); `String.split`,
  `String.indexOf` and friends are modelled by executable functions on
  character lists with the same semantics.
* JS numbers appearing in this core are integers (cell coordinates, sizes)
  or finite pixel quantities; pixel arithmetic is modelled over `ℚ` and
  `Math.round` as `jsRound q = ⌊q + 1/2⌋` (JS rounds half-up).
  A JS `NaN` produced by `parseInt` is modelled as `Option.none`.
* `Set<"x,y">` collections of cell keys are modelled as lists / finsets of
  integer pairs; the canonical key `"x,y"` corresponds to the pair `(x, y)`.
-/

/-- JS strings, modelled as lists of characters. -/
abbrev JStr := List Char

/-- Turn a Lean string literal into the `JStr` model. -/
def jstr (s : String) : JStr := s.data

/- ---------------------------------------------------------------------
JS string primitives used by the codec: split, indexOf.
--------------------------------------------------------------------- -/

/-- JS `s.split(sep)` for a one-character separator: splits at every
occurrence, keeping empty pieces (`"".split(x) = [""]`). -/
def jsSplitCh (sep : Char) : JStr → List JStr
  | [] => [[]]
  | c :: rest =>
    let r := jsSplitCh sep rest
    if c = sep then [] :: r
    else
      match r with
      | [] => [[c]]
      | h :: t => (c :: h) :: t

/-- JS `s.indexOf(ch)`: index of the first occurrence, `none` for `-1`. -/
def jsIndexOf (s : JStr) (ch : Char) : Option ℕ := s.findIdx? (· = ch)

/-- JS `s.includes(ch)` for a single character. -/
def jsIncludes (s : JStr) (ch : Char) : Bool := s.contains ch

/- ---------------------------------------------------------------------
Kinds and the live block model (state.js / blocks.js data model).
--------------------------------------------------------------------- -/

/-- Object kinds of the board (`state.js` Block typedef plus the structural
kinds placed by `main.js`). -/
inductive Kind where
  | flag | hq | city | resource | trap | custom | block
  | castle | turret | fortress | sanctuary
deriving DecidableEq, Repr

/-- A live placed object (`state.blocks` entry).  `left`/`top` are the stored
pixel position; `width`/`height` are only set for `custom` blocks, where the
JS fields being `undefined` (falsy) is modelled as `0`.  `label` is the text
content of the block's `.label` DOM element. -/
structure Block where
  kind : Kind
  size : ℕ
  width : ℕ := 0
  height : ℕ := 0
  left : ℚ
  top : ℚ
  label : JStr := []
  immutable : Bool := false
deriving DecidableEq

/-- JS `b.width || b.size` (width `0`/`undefined` is falsy). -/
def Block.widthOr (b : Block) : ℕ := if b.width = 0 then b.size else b.width

/-- JS `b.height || b.size`. -/
def Block.heightOr (b : Block) : ℕ := if b.height = 0 then b.size else b.height

/- ---------------------------------------------------------------------
transform.js: rounding, grid snapping, pixel↔cell conversion.
--------------------------------------------------------------------- -/

/-- JS `Math.round`: round half toward positive infinity. -/
def jsRound (q : ℚ) : ℤ := ⌊q + 1 / 2⌋

/-- `snapLocal(left, top, size)` from `transform.js`: round a local-space
position to the nearest multiple of the cell pixel size `c`, then clamp so a
`size`-cell square stays inside the `W × H` pixel world. -/
def snapLocal (W H c : ℚ) (left top : ℚ) (size : ℤ) : ℚ × ℚ :=
  let gx : ℚ := (jsRound (left / c) : ℚ) * c
  let gy : ℚ := (jsRound (top / c) : ℚ) * c
  let maxLeft := W - size * c
  let maxTop := H - size * c
  (max 0 (min gx maxLeft), max 0 (min gy maxTop))

/-- `posToCell(left, top)` from `transform.js`: nearest-cell conversion of a
stored pixel position. -/
def posToCell (c : ℚ) (left top : ℚ) : ℤ × ℤ :=
  (jsRound (left / c), jsRound (top / c))

/- ---------------------------------------------------------------------
painter.js: paint radii, coverage, bounding box.
--------------------------------------------------------------------- -/

/-- `KIND_PAINT_RADIUS` from `painter.js`: fixed paint radii; kinds absent
from the table give `none`. -/
def KIND_PAINT_RADIUS : Kind → Option ℤ
  | .flag => some 3
  | .hq => some 7
  | _ => none

/-- The radius actually used by the painter: `KIND_PAINT_RADIUS[kind] ?? 0`. -/
def paintRadius (k : Kind) : ℤ := (KIND_PAINT_RADIUS k).getD 0

/-- Inclusive integer range `[a..b]` (empty when `a > b`); models the JS
`for (let v = a; v <= b; v++)` loops of `painter.js`. -/
def intRange (a b : ℤ) : List ℤ :=
  (List.range (b + 1 - a).toNat).map (fun (i : ℕ) => a + (i : ℤ))

/-- World width in cells: `Math.ceil(world.clientWidth / c)` with pixel sizes
`W` and cell size `c` (both in integer pixels). -/
def worldCells (W c : ℕ) : ℤ := ((W + c - 1) / c : ℕ)

/-- `cellsForKindAt(kind, centerCx, centerCy)` from `painter.js`: all cells of
the radius square around the center, clipped to the world.  `W H` are the
world's pixel dimensions, `c` the cell pixel size. -/
def cellsForKindAt (kind : Kind) (centerCx centerCy : ℤ) (W H c : ℕ) : List (ℤ × ℤ) :=
  let r := paintRadius kind
  let maxX := worldCells W c
  let maxY := worldCells H c
  let minx := max 0 (centerCx - r)
  let maxx := min (maxX - 1) (centerCx + r)
  let miny := max 0 (centerCy - r)
  let maxy := min (maxY - 1) (centerCy + r)
  (intRange miny maxy).flatMap fun y => (intRange minx maxx).map fun x => (x, y)

/-- Result record of `areaBoundingBox` (`painter.js`). -/
structure AreaBox where
  minx : ℤ
  miny : ℤ
  maxx : ℤ
  maxy : ℤ
deriving DecidableEq, Repr

/-- `areaBoundingBox(kind, centerCx, centerCy)` from `painter.js`. -/
def areaBoundingBox (kind : Kind) (centerCx centerCy : ℤ) (W H c : ℕ) : AreaBox :=
  let r := paintRadius kind
  let maxX := worldCells W c
  let maxY := worldCells H c
  { minx := max 0 (centerCx - r)
    miny := max 0 (centerCy - r)
    maxx := min (maxX - 1) (centerCx + r)
    maxy := min (maxY - 1) (centerCy + r) }

/- ---------------------------------------------------------------------
blocks.js: placement validation (validateAllObjects).
--------------------------------------------------------------------- -/

/-- Footprint cells of a block starting at cell origin `(cx, cy)`:
the double loop of `validateAllObjects` in `blocks.js`. -/
def footprintCells (cx cy : ℤ) (width height : ℕ) : List (ℤ × ℤ) :=
  (List.range height).flatMap fun (dy : ℕ) => (List.range width).map fun (dx : ℕ) =>
    (cx + (dx : ℤ), cy + (dy : ℤ))

/-- The per-object invalidity computed by `validateAllObjects` in `blocks.js`:
objects of kind `city` or `trap` are invalid when some footprint cell is
missing from the painted set; all other kinds are valid. -/
def blockInvalid (c : ℚ) (b : Block) (painted : Finset (ℤ × ℤ)) : Bool :=
  if b.kind = .city ∨ b.kind = .trap then
    ! (footprintCells (posToCell c b.left b.top).1 (posToCell c b.left b.top).2
        (if b.kind = .custom then b.widthOr else b.size)
        (if b.kind = .custom then b.heightOr else b.size)).all
      (fun p => decide (p ∈ painted))
  else false

/-- `validateAllObjects` over a block list: the list of invalidity flags. -/
def validateAllObjects (c : ℚ) (blocks : List Block) (painted : Finset (ℤ × ℤ)) :
    List Bool :=
  blocks.map (fun b => blockInvalid c b painted)


/- ---------------------------------------------------------------------
JS number parsing and formatting (parseInt, Number.toString(36)) used by
urlState.js.  parseInt is modelled for radix 10 and 36: leading JS
whitespace is skipped, an optional sign is read, then the maximal prefix of
radix digits (case-insensitive); no digits gives NaN, modelled as `none`.
--------------------------------------------------------------------- -/

/-- Digit value of a character under JS `parseInt` (0-9, a-z, A-Z). -/
def digitVal (c : Char) : Option ℕ :=
  if 48 ≤ c.toNat ∧ c.toNat ≤ 57 then some (c.toNat - 48)
  else if 97 ≤ c.toNat ∧ c.toNat ≤ 122 then some (c.toNat - 87)
  else if 65 ≤ c.toNat ∧ c.toNat ≤ 90 then some (c.toNat - 55)
  else none

/-- Digit value restricted to a radix. -/
def digitValR (radix : ℕ) (c : Char) : Option ℕ :=
  match digitVal c with
  | some d => if d < radix then some d else none
  | none => none

/-- The JS whitespace characters relevant to `parseInt` input skipping. -/
def isJsSpace (c : Char) : Bool := c == ' ' || c == '\t' || c == '\n' || c == '\r'

/-- Value of a digit sequence in the given radix. -/
def digitsValue (radix : ℕ) (ds : List ℕ) : ℕ := ds.foldl (fun acc d => acc * radix + d) 0

/-- The unsigned part of JS `parseInt`: maximal digit prefix, `none` when it
is empty (`NaN`). -/
def parseIntNat (radix : ℕ) (s : JStr) : Option ℕ :=
  let pre := s.takeWhile (fun c => (digitValR radix c).isSome)
  if pre = [] then none else some (digitsValue radix (pre.filterMap (digitValR radix)))

/-- JS `parseInt(s, radix)` (for radix 10 and 36, where no `0x` handling
applies): `none` models `NaN`. -/
def parseIntJS (radix : ℕ) (s : JStr) : Option ℤ :=
  match s.dropWhile isJsSpace with
  | '-' :: rest => (parseIntNat radix rest).map (fun n => -(n : ℤ))
  | '+' :: rest => (parseIntNat radix rest).map (fun n => (n : ℤ))
  | s1 => (parseIntNat radix s1).map (fun n => (n : ℤ))

/-- Digit characters of JS `Number.toString(36)` (lowercase). -/
def b36Digit : ℕ → Char
  | 0 => '0' | 1 => '1' | 2 => '2' | 3 => '3' | 4 => '4'
  | 5 => '5' | 6 => '6' | 7 => '7' | 8 => '8' | 9 => '9'
  | 10 => 'a' | 11 => 'b' | 12 => 'c' | 13 => 'd' | 14 => 'e'
  | 15 => 'f' | 16 => 'g' | 17 => 'h' | 18 => 'i' | 19 => 'j'
  | 20 => 'k' | 21 => 'l' | 22 => 'm' | 23 => 'n' | 24 => 'o'
  | 25 => 'p' | 26 => 'q' | 27 => 'r' | 28 => 's' | 29 => 't'
  | 30 => 'u' | 31 => 'v' | 32 => 'w' | 33 => 'x' | 34 => 'y'
  | 35 => 'z' | _ => '*'

/-- Fuelled positional rendering (the fuel bounds recursion depth; any
`fuel ≥ n` gives JS `n.toString(b)` for `2 ≤ b ≤ 36`). -/
def toRadixGo (b : ℕ) : ℕ → ℕ → JStr
  | 0, n => [b36Digit n]
  | fuel + 1, n =>
    if n < b ∨ b ≤ 1 then [b36Digit n]
    else toRadixGo b fuel (n / b) ++ [b36Digit (n % b)]

/-- JS `n.toString(b)` for a natural number. -/
def toRadix (b n : ℕ) : JStr := toRadixGo b n n

/-- `toB36` from `urlState.js`: `Number(n).toString(36)` (naturals). -/
def toB36 (n : ℕ) : JStr := toRadix 36 n

/-- JS `String(n)` / decimal rendering (naturals). -/
def toDec (n : ℕ) : JStr := toRadix 10 n

/-- `toB36` on signed values (negative numbers render with a leading minus). -/
def toB36Int (n : ℤ) : JStr := if n < 0 then '-' :: toB36 n.natAbs else toB36 n.toNat

/-- Decimal rendering of signed values. -/
def toDecInt (n : ℤ) : JStr := if n < 0 then '-' :: toDec n.natAbs else toDec n.toNat

/-- JS `Array.join(sep)` for a one-character separator. -/
def jsJoin (sep : Char) : List JStr → JStr
  | [] => []
  | [p] => p
  | p :: rest => p ++ sep :: jsJoin sep rest


/- ---------------------------------------------------------------------
Platform string codecs used by urlState.js labels.
Modelled from the spec: `encodeURIComponent` / `decodeURIComponent` are
JavaScript platform built-ins (not in src/); the spec describes the label
suffix as a percent-encoded string.  They are modelled here per the URI
standard: unreserved characters pass through, every other character is
UTF-8-encoded and each byte written as `%` plus two uppercase hex digits;
decoding reads `%`-byte groups back (returning `none` where the JS function
would throw a `URIError`, e.g. on truncated or malformed sequences).
--------------------------------------------------------------------- -/

def hexDigitU : ℕ → Char
  | 0 => '0' | 1 => '1' | 2 => '2' | 3 => '3' | 4 => '4'
  | 5 => '5' | 6 => '6' | 7 => '7' | 8 => '8' | 9 => '9'
  | 10 => 'A' | 11 => 'B' | 12 => 'C' | 13 => 'D' | 14 => 'E'
  | 15 => 'F' | _ => '*'

def hexVal (c : Char) : Option ℕ := digitValR 16 c

def uriUnreserved (c : Char) : Bool :=
  decide ((65 ≤ c.toNat ∧ c.toNat ≤ 90) ∨ (97 ≤ c.toNat ∧ c.toNat ≤ 122) ∨
    (48 ≤ c.toNat ∧ c.toNat ≤ 57) ∨ c.toNat = 45 ∨ c.toNat = 95 ∨ c.toNat = 46 ∨
    c.toNat = 33 ∨ c.toNat = 126 ∨ c.toNat = 42 ∨ c.toNat = 39 ∨ c.toNat = 40 ∨
    c.toNat = 41)

def utf8Bytes (c : Char) : List ℕ :=
  if c.toNat < 128 then [c.toNat]
  else if c.toNat < 2048 then [192 + c.toNat / 64, 128 + c.toNat % 64]
  else if c.toNat < 65536 then
    [224 + c.toNat / 4096, 128 + c.toNat / 64 % 64, 128 + c.toNat % 64]
  else
    [240 + c.toNat / 262144, 128 + c.toNat / 4096 % 64, 128 + c.toNat / 64 % 64,
      128 + c.toNat % 64]

def byteHex (b : ℕ) : JStr := ['%', hexDigitU (b / 16), hexDigitU (b % 16)]

def encChar (c : Char) : JStr :=
  if uriUnreserved c then [c] else (utf8Bytes c).flatMap byteHex

def encodeURIComponentJS (s : JStr) : JStr := s.flatMap encChar

def mkUChar (n : ℕ) (t : Option JStr) : Option JStr :=
  if n.isValidChar then t.map (fun l => Char.ofNat n :: l) else none

def contOk (b : ℕ) : Bool := decide (128 ≤ b ∧ b < 192)

def readContByte : JStr → Option (ℕ × JStr)
  | '%' :: h3 :: h4 :: rest =>
    match hexVal h3, hexVal h4 with
    | some d3, some d4 =>
      if contOk (16 * d3 + d4) then some (16 * d3 + d4 - 128, rest) else none
    | _, _ => none
  | _ => none

def percentDecodeCont1 (go : JStr → Option JStr) (b0 : ℕ) (rest : JStr) : Option JStr :=
  match readContByte rest with
  | some (v1, rest3) => mkUChar ((b0 - 192) * 64 + v1) (go rest3)
  | none => none

def percentDecodeCont2 (go : JStr → Option JStr) (b0 : ℕ) (rest : JStr) : Option JStr :=
  match readContByte rest with
  | some (v1, r1) =>
    match readContByte r1 with
    | some (v2, r2) => mkUChar ((b0 - 224) * 4096 + v1 * 64 + v2) (go r2)
    | none => none
  | none => none

def percentDecodeCont3 (go : JStr → Option JStr) (b0 : ℕ) (rest : JStr) : Option JStr :=
  match readContByte rest with
  | some (v1, r1) =>
    match readContByte r1 with
    | some (v2, r2) =>
      match readContByte r2 with
      | some (v3, r3) =>
        mkUChar ((b0 - 240) * 262144 + v1 * 4096 + v2 * 64 + v3) (go r3)
      | none => none
    | none => none
  | none => none

def percentDecodeByte (go : JStr → Option JStr) (b0 : ℕ) (rest : JStr) : Option JStr :=
  if b0 < 128 then (go rest).map (fun t => Char.ofNat b0 :: t)
  else if b0 < 192 then none
  else if b0 < 224 then percentDecodeCont1 go b0 rest
  else if b0 < 240 then percentDecodeCont2 go b0 rest
  else if b0 < 248 then percentDecodeCont3 go b0 rest
  else none

def percentDecodeHex (go : JStr → Option JStr) : JStr → Option JStr
  | h1 :: h2 :: rest2 =>
    match hexVal h1, hexVal h2 with
    | some d1, some d2 => percentDecodeByte go (16 * d1 + d2) rest2
    | _, _ => none
  | _ => none

def percentDecodeGo : ℕ → JStr → Option JStr
  | _, [] => some []
  | 0, _ :: _ => none
  | fuel + 1, c :: rest =>
    if c = '%' then percentDecodeHex (percentDecodeGo fuel) rest
    else (percentDecodeGo fuel rest).map (fun t => c :: t)

def decodeURIComponentJS (s : JStr) : Option JStr := percentDecodeGo s.length s


/- ---------------------------------------------------------------------
history.js: bounded undo/redo stack of serialized snapshots.
The stack holds snapshot strings; `index` is the current position
(`-1` before initialization).  `applySerialized` re-applies the snapshot at
the new index to the live state; for the history claims only the stack and
index evolution matter, and the snapshot that would be re-applied is
`historyCur`.
--------------------------------------------------------------------- -/

/-- `historyState` from `history.js`: the snapshot stack and current index. -/
structure HistoryState where
  stack : List String
  index : ℤ
deriving DecidableEq, Repr

/-- `initHistoryWithCurrent`: reset to a single snapshot of the current
state. -/
def initHistoryWithCurrent (qs : String) : HistoryState := ⟨[qs], 0⟩

/-- `historyState.stack[historyState.index]` (JS out-of-range access gives
`undefined`, modelled as `none`). -/
def historyCur (s : HistoryState) : Option String :=
  if s.index < 0 then none else s.stack.get? s.index.toNat

/-- `saveCheckpoint` from `history.js` with the serialized snapshot `qs` as
input: no-op when `qs` equals the current snapshot; otherwise truncate the
redo branch, append, and drop from the head beyond `HISTORY_LIMIT = 100`
(the code also shifts the index down by the dropped amount before setting it
to the final last position). -/
def saveCheckpoint (qs : String) (s : HistoryState) : HistoryState :=
  if historyCur s = some qs then s
  else
    let st1 := s.stack.take (s.index + 1).toNat ++ [qs]
    if 100 < st1.length then
      let dropped := st1.length - 100
      let st2 := List.drop dropped st1
      { stack := st2, index := (st2.length : ℤ) - 1 }
    else { stack := st1, index := (st1.length : ℤ) - 1 }

/-- `canUndo` from `history.js`. -/
def canUndo (s : HistoryState) : Bool := 0 < s.index

/-- `canRedo` from `history.js`. -/
def canRedo (s : HistoryState) : Bool := s.index < (s.stack.length : ℤ) - 1

/-- `undo`: silent no-op at the bottom of the stack, else step back (and
re-apply `historyCur` of the result). -/
def undo (s : HistoryState) : HistoryState :=
  if canUndo s then { s with index := s.index - 1 } else s

/-- `redo`: silent no-op at the top, else step forward. -/
def redo (s : HistoryState) : HistoryState :=
  if canRedo s then { s with index := s.index + 1 } else s

/-- One history-manager call. -/
inductive HistoryOp where
  | checkpoint (qs : String)
  | undo
  | redo
deriving DecidableEq, Repr

/-- Apply one history operation. -/
def applyOp (s : HistoryState) : HistoryOp → HistoryState
  | .checkpoint qs => saveCheckpoint qs s
  | .undo => undo s
  | .redo => redo s

/-- Apply a sequence of history operations. -/
def applyOps (s : HistoryState) (ops : List HistoryOp) : HistoryState :=
  ops.foldl applyOp s

/-- The history-state invariant: non-empty bounded stack, index in range. -/
def historyInv (s : HistoryState) : Prop :=
  s.stack ≠ [] ∧ s.stack.length ≤ 100 ∧ 0 ≤ s.index ∧
    s.index ≤ (s.stack.length : ℤ) - 1

/-- The 105 distinct checkpoints of the concrete history scenario. -/
def c6Ops : List HistoryOp :=
  (List.range 105).map (fun i => HistoryOp.checkpoint ("s" ++ toString (i + 1)))


/- ---------------------------------------------------------------------
urlState.js: row-wise RLE codec for the user paint set.
`userPaint` is a JS `Set` of canonical keys `"x,y"`; it is modelled as a
list of integer pairs (the encoder's per-key `parseInt` guard always
succeeds on canonical keys).  `byY` is a JS `Map` built in insertion
order; rows and runs are then emitted in sorted order, so the map is
modelled as an association list with unique keys.
--------------------------------------------------------------------- -/

/-- One `byY` update of `encodeRedRLE`: append `x` to the row of `y`,
creating the row if absent. -/
def addXY : List (ℤ × List ℤ) → ℤ → ℤ → List (ℤ × List ℤ)
  | [], y, x => [(y, [x])]
  | (y0, xs0) :: rest, y, x =>
    if y0 = y then (y0, xs0 ++ [x]) :: rest
    else (y0, xs0) :: addXY rest y x

/-- The `byY` map of `encodeRedRLE` after inserting every paint key. -/
def groupByY (paint : List (ℤ × ℤ)) : List (ℤ × List ℤ) :=
  paint.foldl (fun m p => addXY m p.2 p.1) []

/-- `byY.get(y)` (empty when absent). -/
def lookupY : List (ℤ × List ℤ) → ℤ → List ℤ
  | [], _ => []
  | (y0, xs0) :: rest, y => if y0 = y then xs0 else lookupY rest y

/-- `byY.keys()`. -/
def keysOf (m : List (ℤ × List ℤ)) : List ℤ := m.map (fun e => e.1)

/-- Insertion into a sorted list (ascending). -/
def insertSorted (x : ℤ) : List ℤ → List ℤ
  | [] => [x]
  | y :: rest => if x ≤ y then x :: y :: rest else y :: insertSorted x rest

/-- JS `array.sort((a, b) => a - b)`: numeric ascending sort (modelled by
insertion sort; on the distinct values used here the sorted result is
unique, so the algorithm choice is immaterial). -/
def sortInts (l : List ℤ) : List ℤ := l.foldr insertSorted []

/-- The run-building loop of `encodeRedRLE`: `start`/`prev` state, the
accumulated runs, and the remaining sorted x values. -/
def runsGo : Option (ℤ × ℤ) → List (ℤ × ℤ) → List ℤ → List (ℤ × ℤ)
  | st, acc, [] =>
    acc ++ (match st with | some sp => [sp] | none => [])
  | none, acc, x :: rest => runsGo (some (x, x)) acc rest
  | some (s, p), acc, x :: rest =>
    if x = p + 1 then runsGo (some (s, x)) acc rest
    else runsGo (some (x, x)) (acc ++ [(s, p)]) rest

/-- Maximal consecutive runs of a sorted list of x values. -/
def runsOf (xs : List ℤ) : List (ℤ × ℤ) := runsGo none [] xs

/-- Render one run: `a` or `a-b`. -/
def encodeRun (useB36 : Bool) (r : ℤ × ℤ) : JStr :=
  let A := if useB36 then toB36Int r.1 else toDecInt r.1
  let B := if useB36 then toB36Int r.2 else toDecInt r.2
  if r.1 = r.2 then A else A ++ '-' :: B

/-- Render one row: `y:run,run,...`. -/
def encodeRow (useB36 : Bool) (y : ℤ) (xs : List ℤ) : JStr :=
  let runs := runsOf (sortInts xs)
  let runStr := jsJoin ',' (runs.map (encodeRun useB36))
  (if useB36 then toB36Int y else toDecInt y) ++ ':' :: runStr

/-- `encodeRedRLE` from `urlState.js`. -/
def encodeRedRLE (paint : List (ℤ × ℤ)) (useBase36 : Bool) : JStr :=
  if paint = [] then []
  else
    let byY := groupByY paint
    let ys := sortInts (keysOf byY)
    jsJoin ';' (ys.map (fun y => encodeRow useBase36 y (lookupY byY y)))

/-- Decode one run token of a row (`a`, `a-b`, or malformed). -/
def decodeRedRun (b36 : Bool) (y : ℤ) (r : JStr) : List (ℤ × ℤ) :=
  if r = [] then []
  else if jsIncludes r '-' then
    let parts := jsSplitCh '-' r
    let aStr := parts.headD []
    let bStr := (parts.get? 1).getD (jstr "undefined")
    match parseIntJS (if b36 then 36 else 10) aStr,
      parseIntJS (if b36 then 36 else 10) bStr with
    | some a, some b => (intRange (min a b) (max a b)).map (fun x => (x, y))
    | _, _ => []
  else
    match parseIntJS (if b36 then 36 else 10) r with
    | some x => [(x, y)]
    | none => []

/-- Decode one RLE row (`y:run,run,...`); malformed rows yield nothing. -/
def decodeRedRow (b36 : Bool) (row : JStr) : List (ℤ × ℤ) :=
  if row = [] then []
  else
    let parts := jsSplitCh ':' row
    let yStr := parts.headD []
    match parts.get? 1 with
    | none => []
    | some runsStr =>
      if runsStr = [] then []
      else
        match parseIntJS (if b36 then 36 else 10) yStr with
        | none => []
        | some y => (jsSplitCh ',' runsStr).flatMap (decodeRedRun b36 y)

/-- Decode one legacy `x,y` pair. -/
def decodeRedLegacyPair (b36 : Bool) (p : JStr) : List (ℤ × ℤ) :=
  if p = [] then []
  else
    let parts := jsSplitCh ',' p
    let xs := parts.headD []
    let ys := (parts.get? 1).getD (jstr "undefined")
    match parseIntJS (if b36 then 36 else 10) xs,
      parseIntJS (if b36 then 36 else 10) ys with
    | some x, some y => [(x, y)]
    | _, _ => []

/-- `decodeRed` from `urlState.js`: RLE rows when the string contains a
colon, else the legacy flat `x,y;...` listing.  Output cells are the
decoded `"x,y"` keys as pairs. -/
def decodeRed (str : JStr) (useBase36 : Bool) : List (ℤ × ℤ) :=
  if str = [] then []
  else if jsIncludes str ':' then
    (jsSplitCh ';' str).flatMap (decodeRedRow useBase36)
  else
    (jsSplitCh ';' str).flatMap (decodeRedLegacyPair useBase36)


/- ---------------------------------------------------------------------
urlState.js: block-token serialization and the full state codec.
`URLSearchParams` is transport: `params.set/get` round-trip the three
values `v`, `b`, `r` exactly, so the query string is modelled as a record
of the three optional parameter values.
--------------------------------------------------------------------- -/

/-- `KIND_TO_CODE` from `urlState.js`. -/
def KIND_TO_CODE : Kind → Option Char
  | .block => some 'B'
  | .flag => some 'F'
  | .hq => some 'H'
  | .city => some 'C'
  | .resource => some 'R'
  | .trap => some 'T'
  | .custom => some 'X'
  | _ => none

/-- `CODE_TO_KIND` from `urlState.js` (the inverse table). -/
def CODE_TO_KIND : Char → Option Kind
  | 'B' => some .block
  | 'F' => some .flag
  | 'H' => some .hq
  | 'C' => some .city
  | 'R' => some .resource
  | 'T' => some .trap
  | 'X' => some .custom
  | _ => none

/-- The query-string payload: the three `URLSearchParams` values. -/
structure UrlParams where
  v : Option JStr := none
  b : Option JStr := none
  r : Option JStr := none
deriving DecidableEq

/-- The full board state relevant to the codec: the live blocks and the
user paint set (canonical `"x,y"` keys as pairs). -/
structure BoardState where
  blocks : List Block
  userPaint : List (ℤ × ℤ)

/-- JS `String.trim` on the label text (over the core whitespace set). -/
def jsTrim (s : JStr) : JStr :=
  ((s.dropWhile isJsSpace).reverse.dropWhile isJsSpace).reverse

/-- The computed default label of a custom block:
`` `${b.width || b.size}×${b.height || b.size}` ``. -/
def defaultCustomLabel (b : Block) : JStr :=
  toDec b.widthOr ++ '×' :: toDec b.heightOr

/-- One block token of `serializeState`:
`Code + size36 + '@' + cx36 + ',' + cy36 [+ '~' + encodeURIComponent(label)]`,
with a `w36 x h36` size field for custom blocks, and the label suffix only
for city/custom labels that differ from the defaults. -/
def serializeBlockToken (c : ℚ) (b : Block) : JStr :=
  let cx := jsRound (b.left / c)
  let cy := jsRound (b.top / c)
  let code := (KIND_TO_CODE b.kind).getD 'B'
  let cx36 := toB36Int cx
  let cy36 := toB36Int cy
  let base :=
    if b.kind = .custom then
      code :: (toB36 b.widthOr ++ 'x' :: toB36 b.heightOr) ++ '@' :: cx36 ++ ',' :: cy36
    else
      code :: toB36 b.size ++ '@' :: cx36 ++ ',' :: cy36
  if b.kind = .city then
    let label := jsTrim b.label
    if label ≠ [] ∧ label ≠ jstr "도시" ∧ label ≠ jstr "City" then
      base ++ '~' :: encodeURIComponentJS label
    else base
  else if b.kind = .custom then
    let label := jsTrim b.label
    if label ≠ [] ∧ label ≠ defaultCustomLabel b then
      base ++ '~' :: encodeURIComponentJS label
    else base
  else base

/-- `serializeState` from `urlState.js`: non-immutable blocks as `;`-joined
tokens in `b`, version `2` in `v`, and the RLE paint in `r` only when it is
non-empty. -/
def serializeState (c : ℚ) (st : BoardState) : UrlParams :=
  let bItems := (st.blocks.filter (fun b => !b.immutable)).map (serializeBlockToken c)
  let rRLE := encodeRedRLE st.userPaint true
  { v := some (jstr "2")
    b := some (jsJoin ';' bItems)
    r := if rRLE ≠ [] then some rRLE else none }

/-- A decoded block record of `deserializeState`.  `none` in a numeric field
models JS `NaN` stored by a failed `parseInt`; `width`/`height` are `none`
when the field is absent (non-custom kinds). -/
structure DecodedBlock where
  kind : Kind
  size : Option ℤ
  width : Option ℤ := none
  height : Option ℤ := none
  cx : Option ℤ
  cy : Option ℤ
  label : Option JStr := none
deriving DecidableEq

/-- The result of `deserializeState`. -/
structure DecodedState where
  blocks : List DecodedBlock
  red : List (ℤ × ℤ)
  ver : JStr
deriving DecidableEq

/-- JS `v || d` on a parsed number: `NaN`, `0` and `-0` are falsy. -/
def jsOr (v : Option ℤ) (d : ℤ) : ℤ :=
  match v with
  | none => d
  | some x => if x = 0 then d else x

/-- Parse one coordinate: base-36 in v2 (`NaN` possible), decimal `|| 0` in
v1.  A missing split component is JS `undefined`, which `parseInt` coerces
to the string `"undefined"`. -/
def parseCoord (isV2 : Bool) (s : Option JStr) : Option ℤ :=
  let str := s.getD (jstr "undefined")
  if isV2 then parseIntJS 36 str else some (jsOr (parseIntJS 10 str) 0)

/-- Decode one block token of `deserializeState`; `Except.error` models the
`URIError` thrown by `decodeURIComponent` on a malformed label. -/
def parseToken (isV2 : Bool) (token : JStr) : Except Unit (List DecodedBlock) :=
  if token = [] then .ok []
  else
    match jsIndexOf token '@' with
    | none => .ok []
    | some atIdx =>
      let head := token.take atIdx
      let tail0 := token.drop (atIdx + 1)
      let tailAndLabel : Except Unit (JStr × Option JStr) :=
        match jsIndexOf tail0 '~' with
        | some ti =>
          match decodeURIComponentJS (tail0.drop (ti + 1)) with
          | some l => .ok (tail0.take ti, some l)
          | none => .error ()
        | none => .ok (tail0, none)
      match tailAndLabel with
      | .error e => .error e
      | .ok (tail, label) =>
        let code := head.head?
        let sizeRaw := head.drop 1
        let parts := jsSplitCh ',' tail
        let cx := parseCoord isV2 (some (parts.headD []))
        let cy := parseCoord isV2 (parts.get? 1)
        let kind0 := (code.bind CODE_TO_KIND).getD .block
        let kind := if kind0 = .block then .custom else kind0
        if kind = .custom ∧ jsIncludes sizeRaw 'x' then
          let wh := jsSplitCh 'x' sizeRaw
          let width := if isV2 then parseIntJS 36 (wh.headD [])
            else some (jsOr (parseIntJS 10 (wh.headD [])) 1)
          let height := if isV2 then parseIntJS 36 ((wh.get? 1).getD (jstr "undefined"))
            else some (jsOr (parseIntJS 10 ((wh.get? 1).getD (jstr "undefined"))) 1)
          let size :=
            match width, height with
            | some w, some h => some (max w h)
            | _, _ => none
          .ok [{ kind := kind, size := size, width := width, height := height,
                 cx := cx, cy := cy, label := label }]
        else
          let size := if isV2 then parseIntJS 36 sizeRaw
            else some (jsOr (parseIntJS 10 (if sizeRaw = [] then jstr "1" else sizeRaw)) 1)
          if kind = .custom then
            .ok [{ kind := kind, size := size, width := size, height := size,
                   cx := cx, cy := cy, label := label }]
          else
            .ok [{ kind := kind, size := size, cx := cx, cy := cy, label := label }]

/-- The token loop of `deserializeState`; a thrown `URIError` aborts the
whole decode. -/
def parseTokens (isV2 : Bool) : List JStr → Except Unit (List DecodedBlock)
  | [] => .ok []
  | t :: rest =>
    match parseToken isV2 t with
    | .error e => .error e
    | .ok bs =>
      match parseTokens isV2 rest with
      | .error e => .error e
      | .ok bs2 => .ok (bs ++ bs2)

/-- `deserializeState` from `urlState.js`. -/
def deserializeState (p : UrlParams) : Except Unit DecodedState :=
  let ver :=
    match p.v with
    | some s => if s = [] then jstr "1" else s
    | none => jstr "1"
  let isV2 := ver = jstr "2"
  let bstr := p.b.getD []
  match parseTokens isV2 (jsSplitCh ';' bstr) with
  | .error e => .error e
  | .ok blocks =>
    let redParam := p.r.getD []
    .ok { blocks := blocks, red := decodeRed redParam isV2, ver := ver }

/-- The label persisted by the serializer for a block: the trimmed DOM label
when it is non-empty and differs from the kind's computed default (city
locale defaults, custom `W×H` default); only city and custom labels are
persisted. -/
def persistedLabel (b : Block) : Option JStr :=
  if b.kind = .city then
    let l := jsTrim b.label
    if l ≠ [] ∧ l ≠ jstr "도시" ∧ l ≠ jstr "City" then some l else none
  else if b.kind = .custom then
    let l := jsTrim b.label
    if l ≠ [] ∧ l ≠ defaultCustomLabel b then some l else none
  else none

/-- A block built purely from valid operations: a user-creatable kind, sizes
within limits (custom width/height in 1..30), and a snapped nonnegative
integer cell position. -/
def ValidBlock (c : ℚ) (b : Block) : Prop :=
  b.immutable = false →
    (b.kind = .flag ∨ b.kind = .hq ∨ b.kind = .city ∨ b.kind = .resource ∨
     b.kind = .trap ∨ b.kind = .custom) ∧
    1 ≤ b.size ∧ b.size ≤ 30 ∧
    (b.kind = .custom → 1 ≤ b.width ∧ b.width ≤ 30 ∧ 1 ≤ b.height ∧ b.height ≤ 30) ∧
    ∃ cx cy : ℕ, b.left = (cx : ℚ) * c ∧ b.top = (cy : ℚ) * c

/-- A user paint set built from valid toggles: a set (no duplicates) of
nonnegative cells. -/
def ValidPaint (paint : List (ℤ × ℤ)) : Prop :=
  paint.Nodup ∧ ∀ p ∈ paint, 0 ≤ p.1 ∧ 0 ≤ p.2

/-- The optional `~label` suffix of a serialized block token. -/
def labelSuffix (lab : Option JStr) : JStr :=
  match lab with
  | some l => '~' :: encodeURIComponentJS l
  | none => []

/-- The block record that `deserializeState` produces for one serialized
block: position as the serialized cell, sizes parsed back, label the
persisted one. -/
def decodedOfBlock (b : Block) (cx0 cy0 : ℕ) : DecodedBlock :=
  if b.kind = .custom then
    { kind := .custom
      size := some (max (b.widthOr : ℤ) (b.heightOr : ℤ))
      width := some (b.widthOr : ℤ)
      height := some (b.heightOr : ℤ)
      cx := some (cx0 : ℤ)
      cy := some (cy0 : ℤ)
      label := persistedLabel b }
  else
    { kind := b.kind
      size := some (b.size : ℤ)
      cx := some (cx0 : ℤ)
      cy := some (cy0 : ℤ)
      label := persistedLabel b }

/-- The round-trip equivalence of the spec for one block: the decoded record
has the same kind, the same size (width/height and their max for custom
blocks), the same cell position (scaled back to the stored pixel position),
and the persisted label. -/
def decodedMatches (c : ℚ) (b : Block) (db : DecodedBlock) : Prop :=
  db.kind = b.kind ∧
  (b.kind = .custom →
    db.width = some (b.widthOr : ℤ) ∧ db.height = some (b.heightOr : ℤ) ∧
    db.size = some (max (b.widthOr : ℤ) (b.heightOr : ℤ))) ∧
  (b.kind ≠ .custom → db.size = some (b.size : ℤ)) ∧
  db.cx.map (fun x => (x : ℚ) * c) = some b.left ∧
  db.cy.map (fun y => (y : ℚ) * c) = some b.top ∧
  db.label = persistedLabel b

/- ---------------------------------------------------------------------
Helper lemmas for the painter and validator claims.
--------------------------------------------------------------------- -/

theorem mem_intRange {a b t : ℤ} : t ∈ intRange a b ↔ a ≤ t ∧ t ≤ b := by
  unfold intRange
  simp only [List.mem_map, List.mem_range]
  constructor
  · rintro ⟨i, hi, rfl⟩
    omega
  · rintro ⟨h1, h2⟩
    exact ⟨(t - a).toNat, by omega, by omega⟩

theorem paintRadius_nonneg (k : Kind) : 0 ≤ paintRadius k := by
  cases k <;> decide

theorem mem_cellsForKindAt {k : Kind} {cx cy : ℤ} {W H c : ℕ} {p : ℤ × ℤ} :
    p ∈ cellsForKindAt k cx cy W H c ↔
      max 0 (cx - paintRadius k) ≤ p.1 ∧ p.1 ≤ min (worldCells W c - 1) (cx + paintRadius k) ∧
      max 0 (cy - paintRadius k) ≤ p.2 ∧ p.2 ≤ min (worldCells H c - 1) (cy + paintRadius k) := by
  unfold cellsForKindAt
  simp only [List.mem_flatMap, List.mem_map, mem_intRange]
  constructor
  · rintro ⟨y0, ⟨hy1, hy2⟩, x0, ⟨hx1, hx2⟩, rfl⟩
    exact ⟨hx1, hx2, hy1, hy2⟩
  · rintro ⟨h1, h2, h3, h4⟩
    exact ⟨p.2, ⟨h3, h4⟩, p.1, ⟨h1, h2⟩, rfl⟩

theorem blockInvalid_iff (c : ℚ) (b : Block) (painted : Finset (ℤ × ℤ)) :
    blockInvalid c b painted = true ↔
      ((b.kind = .city ∨ b.kind = .trap) ∧
        ∃ q ∈ footprintCells (posToCell c b.left b.top).1 (posToCell c b.left b.top).2
            (if b.kind = .custom then b.widthOr else b.size)
            (if b.kind = .custom then b.heightOr else b.size), q ∉ painted) := by
  by_cases hv : b.kind = .city ∨ b.kind = .trap
  · rw [blockInvalid, if_pos hv, Bool.not_eq_true', Bool.eq_false_iff]
    simp only [ne_eq, List.all_eq_true, decide_eq_true_eq, not_forall, exists_prop, hv,
      true_and]
  · rw [blockInvalid, if_neg hv]
    simp [hv]

theorem mem_footprintCells {cx cy : ℤ} {w h : ℕ} {q : ℤ × ℤ} :
    q ∈ footprintCells cx cy w h ↔
      cx ≤ q.1 ∧ q.1 < cx + w ∧ cy ≤ q.2 ∧ q.2 < cy + h := by
  unfold footprintCells
  simp only [List.mem_flatMap, List.mem_map, List.mem_range]
  constructor
  · rintro ⟨dy, hdy, dx, hdx, rfl⟩
    refine ⟨?_, ?_, ?_, ?_⟩ <;> simp <;> omega
  · rintro ⟨h1, h2, h3, h4⟩
    refine ⟨(q.2 - cy).toNat, by omega, (q.1 - cx).toNat, by omega, ?_⟩
    have e1 : cx + ((q.1 - cx).toNat : ℤ) = q.1 := by omega
    have e2 : cy + ((q.2 - cy).toNat : ℤ) = q.2 := by omega
    rw [e1, e2]

theorem posToCell_snapped (c : ℚ) (hc : 0 < c) (cx cy : ℤ) :
    posToCell c ((cx : ℚ) * c) ((cy : ℚ) * c) = (cx, cy) := by
  have key : ∀ n : ℤ, jsRound ((n : ℚ) * c / c) = n := by
    intro n
    rw [jsRound, mul_div_assoc, div_self (ne_of_gt hc), mul_one, Int.floor_int_add]
    norm_num
  rw [posToCell, key, key]

/- ---------------------------------------------------------------------
Claim C3 — painter coverage.
--------------------------------------------------------------------- -/

/-- C3, counterexample: the claim says kinds with no registered paint radius
return the empty set for every center cell, but `cellsForKindAt` treats a
missing radius as radius `0` (`?? 0`) and returns the clipped center cell:
for kind `trap` (unregistered) at center `(0,0)` in the default
1200×1200-cell world (cell size 48 px) it returns `[(0,0)]`, not `[]`. -/
theorem cellsForKindAt_unregistered_not_empty :
    cellsForKindAt Kind.trap 0 0 57600 57600 48 = [(0, 0)] ∧
    cellsForKindAt Kind.trap 0 0 57600 57600 48 ≠ [] := by
  constructor <;> decide

/-- C3, amended: for every kind, `cellsForKindAt` returns exactly the cells of
the axis-aligned square of half-width `R` centered on the center cell, clipped
to the world cell bounds `[0, ⌈W/c⌉) × [0, ⌈H/c⌉)`, where `R` is the kind's
registered radius, and `R = 0` for kinds with no registered radius (so such
kinds yield the clipped center cell alone, not the empty set). -/
theorem cellsForKindAt_characterization (k : Kind) (cx cy : ℤ) (W H c : ℕ)
    (_hc : 0 < c) (p : ℤ × ℤ) :
    p ∈ cellsForKindAt k cx cy W H c ↔
      ((KIND_PAINT_RADIUS k).getD 0 = paintRadius k ∧
       |p.1 - cx| ≤ paintRadius k ∧ |p.2 - cy| ≤ paintRadius k ∧
       0 ≤ p.1 ∧ p.1 < worldCells W c ∧ 0 ≤ p.2 ∧ p.2 < worldCells H c) := by
  rw [mem_cellsForKindAt]
  have hr := paintRadius_nonneg k
  constructor
  · rintro ⟨h1, h2, h3, h4⟩
    refine ⟨rfl, ?_⟩
    simp only [abs_le]
    omega
  · rintro ⟨-, h⟩
    simp only [abs_le] at h
    refine ⟨?_, ?_, ?_, ?_⟩ <;> omega

/-- C3 witness: concrete instance of the characterization — for the registered
kind `flag` (radius 3) centered at `(2, 2)` in the default world, cell `(0, 5)`
is covered while cell `(6, 2)` is not. -/
theorem cellsForKindAt_characterization_witness :
    (0, 5) ∈ cellsForKindAt Kind.flag 2 2 57600 57600 48 ∧
    (6, 2) ∉ cellsForKindAt Kind.flag 2 2 57600 57600 48 := by
  constructor
  · exact (cellsForKindAt_characterization Kind.flag 2 2 57600 57600 48 (by decide)
      (0, 5)).mpr (by decide)
  · intro h
    have := (cellsForKindAt_characterization Kind.flag 2 2 57600 57600 48 (by decide)
      (6, 2)).mp h
    revert this
    decide

/- ---------------------------------------------------------------------
Claim C4 — painter bounding box.
--------------------------------------------------------------------- -/

/-- C4, counterexample: the claim says `areaBoundingBox` returns the corners
of the full radius-`R` square, `min = (cx − R, cy − R)`, independent of world
clipping; but the code clamps with `Math.max(0, centerCx - r)`: for kind
`flag` (radius 3) centered at `(0, 0)` it returns `minx = 0`, not `-3`. -/
theorem areaBoundingBox_clips_at_edge :
    (areaBoundingBox Kind.flag 0 0 57600 57600 48).minx = 0 ∧
    ((0 : ℤ) ≠ 0 - 3) := by
  constructor <;> decide

/-- C4, amended: `areaBoundingBox` returns the corners of the radius-`R`
square clipped to the world cell bounds (the same clipping as the coverage
computation), i.e. `min = (max 0 (cx − R), max 0 (cy − R))` and
`max = (min (maxX−1) (cx + R), min (maxY−1) (cy + R))`; consequently its
corners exactly bound the coverage set: a cell is in `cellsForKindAt` iff it
lies inside the returned box. -/
theorem areaBoundingBox_bounds_coverage (k : Kind) (cx cy : ℤ) (W H c : ℕ)
    (_hc : 0 < c) :
    (areaBoundingBox k cx cy W H c =
      { minx := max 0 (cx - paintRadius k), miny := max 0 (cy - paintRadius k)
        maxx := min (worldCells W c - 1) (cx + paintRadius k)
        maxy := min (worldCells H c - 1) (cy + paintRadius k) }) ∧
    ∀ p : ℤ × ℤ,
      p ∈ cellsForKindAt k cx cy W H c ↔
        ((areaBoundingBox k cx cy W H c).minx ≤ p.1 ∧
         p.1 ≤ (areaBoundingBox k cx cy W H c).maxx ∧
         (areaBoundingBox k cx cy W H c).miny ≤ p.2 ∧
         p.2 ≤ (areaBoundingBox k cx cy W H c).maxy) := by
  refine ⟨rfl, fun p => ?_⟩
  rw [mem_cellsForKindAt]
  rfl

/-- C4 witness: the amended characterization applied to `hq` (radius 7)
centered at `(3, 1195)` in the default 1200-cell world: the box is clipped on
three sides and bounds the coverage of the corner cell `(0, 1199)`. -/
theorem areaBoundingBox_bounds_coverage_witness :
    areaBoundingBox Kind.hq 3 1195 57600 57600 48 =
      { minx := 0, miny := 1188, maxx := 10, maxy := 1199 } ∧
    (0, 1199) ∈ cellsForKindAt Kind.hq 3 1195 57600 57600 48 := by
  have h := areaBoundingBox_bounds_coverage Kind.hq 3 1195 57600 57600 48 (by decide)
  refine ⟨by decide, (h.2 (0, 1199)).mpr (by decide)⟩

/- ---------------------------------------------------------------------
Claim C5 — placement validation.
--------------------------------------------------------------------- -/

/-- C5: for a block whose pixel position is snapped to cell `(cx, cy)`, the
validator marks it invalid iff its kind requires validation (`city` or
`trap`) and some cell of its full `size × size` footprint starting at
`(cx, cy)` is absent from the painted set; objects of all other kinds are
always valid.  (For the validated kinds the footprint width and height both
equal `size`, since the `custom`-width branch never applies to them.) -/
theorem blockInvalid_characterization (c : ℚ) (hc : 0 < c) (b : Block)
    (painted : Finset (ℤ × ℤ)) (cx cy : ℤ)
    (hleft : b.left = (cx : ℚ) * c) (htop : b.top = (cy : ℚ) * c) :
    blockInvalid c b painted = true ↔
      ((b.kind = .city ∨ b.kind = .trap) ∧
        ∃ x y : ℤ, cx ≤ x ∧ x < cx + b.size ∧ cy ≤ y ∧ y < cy + b.size ∧
          (x, y) ∉ painted) := by
  rw [blockInvalid_iff, hleft, htop, posToCell_snapped c hc]
  constructor
  · rintro ⟨hv, q, hq, hnot⟩
    have hkc : b.kind ≠ .custom := by rcases hv with h | h <;> simp [h]
    rw [if_neg hkc, if_neg hkc] at hq
    rw [mem_footprintCells] at hq
    exact ⟨hv, q.1, q.2, hq.1, hq.2.1, hq.2.2.1, hq.2.2.2, by simpa using hnot⟩
  · rintro ⟨hv, x, y, h1, h2, h3, h4, hnot⟩
    have hkc : b.kind ≠ .custom := by rcases hv with h | h <;> simp [h]
    rw [if_neg hkc, if_neg hkc]
    exact ⟨hv, (x, y), mem_footprintCells.mpr ⟨h1, h2, h3, h4⟩, hnot⟩

/-- C5 witness: the claim's concrete scenario — a `trap` of footprint size 2
snapped at cell `(0,0)` with painted set containing only `(0,0)` is marked
invalid (cell `(1,0)` is missing). -/
theorem blockInvalid_characterization_witness :
    blockInvalid 48 { kind := .trap, size := 2, left := 0, top := 0 }
      ({(0, 0)} : Finset (ℤ × ℤ)) = true := by
  refine (blockInvalid_characterization 48 (by norm_num)
    { kind := .trap, size := 2, left := 0, top := 0 } {(0, 0)} 0 0
    (by norm_num) (by norm_num)).mpr ⟨Or.inr rfl, 1, 0, ?_, ?_, ?_, ?_, ?_⟩ <;> decide

/- ---------------------------------------------------------------------
Claim C9 — validation monotonicity.
--------------------------------------------------------------------- -/

/-- C9: placement validity is monotone in painted-set membership — if the
painted set shrinks (`painted ⊆ painted'` and we pass from `painted'` to
`painted`), an invalid object stays invalid; contrapositively, adding cells
to the painted set never turns a valid object invalid, and removing cells
never turns an invalid object valid. -/
theorem blockInvalid_antitone (c : ℚ) (b : Block) (painted painted' : Finset (ℤ × ℤ))
    (hsub : painted ⊆ painted') (hinv : blockInvalid c b painted' = true) :
    blockInvalid c b painted = true := by
  rw [blockInvalid_iff] at hinv ⊢
  obtain ⟨hv, q, hq, hnot⟩ := hinv
  exact ⟨hv, q, hq, fun hmem => hnot (hsub hmem)⟩

/-- C9 witness: a `city` of size 1 at cell `(0,0)` is invalid against the
painted set `{(5,5)}`, hence (by monotonicity) also invalid against its
subset `∅`. -/
theorem blockInvalid_antitone_witness :
    blockInvalid 48 { kind := .city, size := 1, left := 0, top := 0 }
      (∅ : Finset (ℤ × ℤ)) = true := by
  refine blockInvalid_antitone 48 _ ∅ {(5, 5)} (by simp) ?_
  rw [blockInvalid_iff]
  have hp : posToCell 48 (0 : ℚ) (0 : ℚ) = (0, 0) := by
    norm_num [posToCell, jsRound]
  refine ⟨Or.inl rfl, (0, 0), ?_, by decide⟩
  show (0, 0) ∈ footprintCells (posToCell 48 0 0).1 (posToCell 48 0 0).2 1 1
  rw [hp]
  decide


/- ---------------------------------------------------------------------
Lemmas about the JS string and number primitives.
--------------------------------------------------------------------- -/

theorem jsSplitCh_ne_nil (sep : Char) (s : JStr) : jsSplitCh sep s ≠ [] := by
  induction s with
  | nil => simp [jsSplitCh]
  | cons c rest ih =>
    rw [jsSplitCh]
    split
    · simp
    · match h : jsSplitCh sep rest with
      | [] => simp
      | x :: t => simp

theorem jsSplitCh_no_sep {sep : Char} {s : JStr} (h : sep ∉ s) : jsSplitCh sep s = [s] := by
  induction s with
  | nil => rfl
  | cons c rest ih =>
    rw [jsSplitCh]
    rw [if_neg (by intro hc; exact h (hc ▸ List.mem_cons_self c rest))]
    rw [ih (fun hm => h (List.mem_cons_of_mem c hm))]

theorem jsSplitCh_append {sep : Char} {a b : JStr} (h : sep ∉ a) :
    jsSplitCh sep (a ++ sep :: b) = a :: jsSplitCh sep b := by
  induction a with
  | nil => simp [jsSplitCh]
  | cons c rest ih =>
    have hc : c ≠ sep := fun hc => h (hc ▸ List.mem_cons_self c rest)
    rw [List.cons_append, jsSplitCh, if_neg hc,
      ih (fun hm => h (List.mem_cons_of_mem c hm))]

theorem jsSplitCh_join {sep : Char} {parts : List JStr} (hne : parts ≠ [])
    (h : ∀ p ∈ parts, sep ∉ p) :
    jsSplitCh sep (jsJoin sep parts) = parts := by
  induction parts with
  | nil => exact absurd rfl hne
  | cons p rest ih =>
    match rest with
    | [] => exact jsSplitCh_no_sep (h p (List.mem_cons_self p []))
    | q :: t =>
      rw [show jsJoin sep (p :: q :: t) = p ++ sep :: jsJoin sep (q :: t) from rfl,
        jsSplitCh_append (h p (List.mem_cons_self p _)),
        ih (by simp) (fun r hr => h r (List.mem_cons_of_mem p hr))]


theorem digitVal_b36Digit : ∀ d < 36, digitVal (b36Digit d) = some d := by decide

theorem b36Digit_not_sep : ∀ d < 36,
    b36Digit d ∉ ([';', ':', ',', '@', '~', '-', '+', ' ', '%'] : List Char) := by decide

theorem b36Digit_ne_x : ∀ d < 36, d ≠ 33 → b36Digit d ≠ 'x' := by decide

theorem digitVal_isSome_bounds {c : Char} {d : ℕ} (h : digitVal c = some d) :
    (48 ≤ c.toNat ∧ c.toNat ≤ 57) ∨ (97 ≤ c.toNat ∧ c.toNat ≤ 122) ∨
    (65 ≤ c.toNat ∧ c.toNat ≤ 90) := by
  unfold digitVal at h
  split_ifs at h <;> omega

theorem digitValR_isSome_bounds {b : ℕ} {c : Char} (h : (digitValR b c).isSome) :
    (48 ≤ c.toNat ∧ c.toNat ≤ 57) ∨ (97 ≤ c.toNat ∧ c.toNat ≤ 122) ∨
    (65 ≤ c.toNat ∧ c.toNat ≤ 90) := by
  unfold digitValR at h
  cases hd : digitVal c with
  | none => rw [hd] at h; simp at h
  | some d => exact digitVal_isSome_bounds hd

theorem digitValR_b36Digit {b d : ℕ} (hb36 : b ≤ 36) (hd : d < b) :
    digitValR b (b36Digit d) = some d := by
  unfold digitValR
  rw [digitVal_b36Digit d (by omega)]
  simp [hd]

theorem toRadix_digits {b : ℕ} (hb : 2 ≤ b) :
    ∀ fuel n, n ≤ fuel → ∀ c ∈ toRadixGo b fuel n, ∃ d, d < b ∧ c = b36Digit d := by
  intro fuel
  induction fuel with
  | zero =>
    intro n hn c hc
    interval_cases n
    simp [toRadixGo] at hc
    exact ⟨0, by omega, hc⟩
  | succ fuel ih =>
    intro n hn c hc
    rw [toRadixGo] at hc
    split at hc
    · next h =>
      simp at hc
      subst hc
      rcases h with h | h
      · exact ⟨n, h, rfl⟩
      · omega
    · next h =>
      push_neg at h
      have hdiv : n / b < n := Nat.div_lt_self (by omega) (by omega)
      rcases List.mem_append.mp hc with hm | hm
      · exact ih (n / b) (by omega) c hm
      · simp at hm
        exact ⟨n % b, Nat.mod_lt n (by omega), hm⟩

theorem digitsValue_append (b : ℕ) (ds : List ℕ) (d : ℕ) :
    digitsValue b (ds ++ [d]) = digitsValue b ds * b + d := by
  unfold digitsValue
  rw [List.foldl_append]
  rfl

theorem toRadixGo_ne_nil (b fuel n : ℕ) : toRadixGo b fuel n ≠ [] := by
  cases fuel with
  | zero => simp [toRadixGo]
  | succ fuel =>
    rw [toRadixGo]
    split
    · simp
    · simp

theorem toRadix_value {b : ℕ} (hb : 2 ≤ b) (hb36 : b ≤ 36) :
    ∀ fuel n, n ≤ fuel →
      digitsValue b ((toRadixGo b fuel n).filterMap (digitValR b)) = n := by
  intro fuel
  induction fuel with
  | zero =>
    intro n hn
    interval_cases n
    simp [toRadixGo, digitValR_b36Digit hb36 (by omega : 0 < b), digitsValue]
  | succ fuel ih =>
    intro n hn
    rw [toRadixGo]
    split
    · next h =>
      have hn' : n < b := by omega
      simp [digitValR_b36Digit hb36 hn', digitsValue]
    · next h =>
      push_neg at h
      rw [List.filterMap_append]
      have h2 : List.filterMap (digitValR b) [b36Digit (n % b)] = [n % b] := by
        simp [digitValR_b36Digit hb36 (Nat.mod_lt n (by omega))]
      have hdiv : n / b < n := Nat.div_lt_self (by omega) (by omega)
      rw [h2, digitsValue_append, ih (n / b) (by omega)]
      exact Nat.div_add_mod' n b

theorem digitValR_not_space_sign {b : ℕ} {c : Char} (h : (digitValR b c).isSome) :
    isJsSpace c = false ∧ c ≠ '-' ∧ c ≠ '+' := by
  have hb := digitValR_isSome_bounds h
  have h48 : 48 ≤ c.toNat := by
    rcases hb with ⟨h1, h2⟩ | ⟨h1, h2⟩ | ⟨h1, h2⟩ <;> omega
  refine ⟨?_, ?_, ?_⟩
  · simp only [isJsSpace, Bool.or_eq_false_iff, beq_eq_false_iff_ne, ne_eq]
    refine ⟨⟨⟨?_, ?_⟩, ?_⟩, ?_⟩ <;> rintro rfl <;> revert h48 <;> decide
  · rintro rfl; revert h48; decide
  · rintro rfl; revert h48; decide

theorem parseIntNat_all_digits {b : ℕ} {s : JStr} (hne : s ≠ [])
    (hdig : ∀ c ∈ s, (digitValR b c).isSome) :
    parseIntNat b s = some (digitsValue b (s.filterMap (digitValR b))) := by
  unfold parseIntNat
  have ht : s.takeWhile (fun c => (digitValR b c).isSome) = s :=
    List.takeWhile_eq_self_iff.mpr (fun c hc => hdig c hc)
  rw [ht, if_neg hne]

theorem parseIntJS_all_digits {b : ℕ} {s : JStr} (hne : s ≠ [])
    (hdig : ∀ c ∈ s, (digitValR b c).isSome) :
    parseIntJS b s = some ((digitsValue b (s.filterMap (digitValR b)) : ℕ) : ℤ) := by
  unfold parseIntJS
  match s, hne with
  | c :: rest, _ =>
    have hc := hdig c (List.mem_cons_self c rest)
    obtain ⟨hsp, hmin, hplus⟩ := digitValR_not_space_sign hc
    rw [List.dropWhile_cons, if_neg (by simp [hsp])]
    have hp := parseIntNat_all_digits (List.cons_ne_nil c rest) hdig
    split
    · next heq => cases heq; exact absurd rfl hmin
    · next heq => cases heq; exact absurd rfl hplus
    · rw [hp]; rfl

theorem parseIntJS_toB36 (n : ℕ) : parseIntJS 36 (toB36 n) = some (n : ℤ) := by
  have hdig : ∀ c ∈ toB36 n, (digitValR 36 c).isSome := by
    intro c hc
    obtain ⟨d, hd, rfl⟩ := toRadix_digits (by norm_num) n n le_rfl c hc
    rw [digitValR_b36Digit (by norm_num) hd]
    rfl
  show parseIntJS 36 (toRadixGo 36 n n) = some (n : ℤ)
  rw [parseIntJS_all_digits (toRadixGo_ne_nil 36 n n) hdig,
    toRadix_value (by norm_num) (by norm_num) n n le_rfl]

theorem parseIntJS_toDec (n : ℕ) : parseIntJS 10 (toDec n) = some (n : ℤ) := by
  have hdig : ∀ c ∈ toDec n, (digitValR 10 c).isSome := by
    intro c hc
    obtain ⟨d, hd, rfl⟩ := toRadix_digits (by norm_num) n n le_rfl c hc
    rw [digitValR_b36Digit (by norm_num) hd]
    rfl
  show parseIntJS 10 (toRadixGo 10 n n) = some (n : ℤ)
  rw [parseIntJS_all_digits (toRadixGo_ne_nil 10 n n) hdig,
    toRadix_value (by norm_num) (by norm_num) n n le_rfl]

theorem mem_toB36_not_sep {n : ℕ} {c : Char} (hc : c ∈ toB36 n) :
    c ∉ ([';', ':', ',', '@', '~', '-', '+', ' ', '%'] : List Char) := by
  obtain ⟨d, hd, rfl⟩ := toRadix_digits (by norm_num) n n le_rfl c hc
  exact b36Digit_not_sep d hd

theorem mem_toDec_not_sep {n : ℕ} {c : Char} (hc : c ∈ toDec n) :
    c ∉ ([';', ':', ',', '@', '~', '-', '+', ' ', '%'] : List Char) := by
  obtain ⟨d, hd, rfl⟩ := toRadix_digits (by norm_num) n n le_rfl c hc
  exact b36Digit_not_sep d (by omega)

theorem toB36_single {n : ℕ} (h36 : n < 36) : toB36 n = [b36Digit n] := by
  unfold toB36 toRadix
  cases n with
  | zero => rfl
  | succ m => rw [toRadixGo, if_pos (Or.inl (by omega))]

theorem toB36_small_no_x {n : ℕ} (h30 : n ≤ 30) : 'x' ∉ toB36 n := by
  rw [toB36_single (by omega)]
  intro hmem
  simp at hmem
  exact b36Digit_ne_x n (by omega) (by omega) hmem.symm


/- ---------------------------------------------------------------------
Lemmas for the percent-encoding codec (label round trip).
--------------------------------------------------------------------- -/

theorem hexVal_hexDigitU : ∀ d < 16, hexVal (hexDigitU d) = some d := by decide

theorem char_ofNat_toNat (c : Char) : Char.ofNat c.toNat = c := Char.ofNat_toNat c

theorem percentDecodeHex_hex {a b : ℕ} (ha : a < 16) (hb : b < 16)
    (go : JStr → Option JStr) (r : JStr) :
    percentDecodeHex go (hexDigitU a :: hexDigitU b :: r) =
      percentDecodeByte go (16 * a + b) r := by
  rw [percentDecodeHex, hexVal_hexDigitU a ha, hexVal_hexDigitU b hb]

theorem readContByte_byteHex {v : ℕ} (hv : v < 64) (r : JStr) :
    readContByte (byteHex (128 + v) ++ r) = some (v, r) := by
  have h1 : (128 + v) / 16 < 16 := by omega
  have h2 : (128 + v) % 16 < 16 := by omega
  rw [byteHex]
  show readContByte ('%' :: hexDigitU ((128 + v) / 16) :: hexDigitU ((128 + v) % 16) :: r)
    = some (v, r)
  rw [readContByte, hexVal_hexDigitU _ h1, hexVal_hexDigitU _ h2]
  dsimp only
  have hb : 16 * ((128 + v) / 16) + (128 + v) % 16 = 128 + v := by omega
  rw [hb, if_pos (by unfold contOk; simp; omega)]
  simp

theorem percentDecodeGo_cons_pct (fuel : ℕ) (rest : JStr) :
    percentDecodeGo (fuel + 1) ('%' :: rest) =
      percentDecodeHex (percentDecodeGo fuel) rest := by
  rw [percentDecodeGo, if_pos rfl]

theorem percentDecodeGo_cons_other (fuel : ℕ) {c : Char} (hc : c ≠ '%') (rest : JStr) :
    percentDecodeGo (fuel + 1) (c :: rest) =
      (percentDecodeGo fuel rest).map (fun t => c :: t) := by
  rw [percentDecodeGo, if_neg hc]

theorem percentDecode_encChar (c : Char) (fuel : ℕ) (rest : JStr) :
    percentDecodeGo (fuel + 1) (encChar c ++ rest) =
      (percentDecodeGo fuel rest).map (fun t => c :: t) := by
  unfold encChar
  by_cases hu : uriUnreserved c
  · rw [if_pos hu, List.singleton_append,
      percentDecodeGo_cons_other fuel (by intro he; subst he; revert hu; decide) rest]
  · rw [if_neg hu]
    have hv : c.toNat.isValidChar := c.valid
    have h4 : c.toNat < 1114112 := by rcases hv with h | h <;> omega
    unfold utf8Bytes
    rcases Nat.lt_or_ge c.toNat 128 with h1 | h1
    · rw [if_pos h1]
      have e1 : c.toNat / 16 < 16 := by omega
      have e2 : c.toNat % 16 < 16 := by omega
      show percentDecodeGo (fuel + 1)
        ('%' :: hexDigitU (c.toNat / 16) :: hexDigitU (c.toNat % 16) :: rest) = _
      rw [percentDecodeGo_cons_pct, percentDecodeHex_hex e1 e2]
      have hb : 16 * (c.toNat / 16) + c.toNat % 16 = c.toNat := by omega
      rw [hb, percentDecodeByte, if_pos h1, char_ofNat_toNat]
    · rcases Nat.lt_or_ge c.toNat 2048 with h2 | h2
      · rw [if_neg (by omega), if_pos h2]
        have e1 : (192 + c.toNat / 64) / 16 < 16 := by omega
        have e2 : (192 + c.toNat / 64) % 16 < 16 := by omega
        show percentDecodeGo (fuel + 1)
          ('%' :: hexDigitU ((192 + c.toNat / 64) / 16)
            :: hexDigitU ((192 + c.toNat / 64) % 16)
            :: (byteHex (128 + c.toNat % 64) ++ rest)) = _
        rw [percentDecodeGo_cons_pct, percentDecodeHex_hex e1 e2]
        have hb : 16 * ((192 + c.toNat / 64) / 16) + (192 + c.toNat / 64) % 16 =
            192 + c.toNat / 64 := by omega
        rw [hb, percentDecodeByte, if_neg (by omega), if_neg (by omega),
          if_pos (by omega), percentDecodeCont1,
          readContByte_byteHex (by omega) rest]
        dsimp only
        have hval : (192 + c.toNat / 64 - 192) * 64 + c.toNat % 64 = c.toNat := by omega
        rw [show ((192 + c.toNat / 64 - 192) * 64 + c.toNat % 64) = c.toNat from hval,
          mkUChar, if_pos hv, char_ofNat_toNat]
      · rcases Nat.lt_or_ge c.toNat 65536 with h3 | h3
        · rw [if_neg (by omega), if_neg (by omega), if_pos h3]
          have e1 : (224 + c.toNat / 4096) / 16 < 16 := by omega
          have e2 : (224 + c.toNat / 4096) % 16 < 16 := by omega
          show percentDecodeGo (fuel + 1)
            ('%' :: hexDigitU ((224 + c.toNat / 4096) / 16)
              :: hexDigitU ((224 + c.toNat / 4096) % 16)
              :: (byteHex (128 + c.toNat / 64 % 64) ++
                  (byteHex (128 + c.toNat % 64) ++ rest))) = _
          rw [percentDecodeGo_cons_pct, percentDecodeHex_hex e1 e2]
          have hb : 16 * ((224 + c.toNat / 4096) / 16) + (224 + c.toNat / 4096) % 16 =
              224 + c.toNat / 4096 := by omega
          rw [hb, percentDecodeByte, if_neg (by omega), if_neg (by omega),
            if_neg (by omega), if_pos (by omega), percentDecodeCont2,
            readContByte_byteHex (by omega)]
          dsimp only
          rw [readContByte_byteHex (by omega)]
          dsimp only
          have hval : (224 + c.toNat / 4096 - 224) * 4096 + c.toNat / 64 % 64 * 64 +
              c.toNat % 64 = c.toNat := by omega
          rw [show ((224 + c.toNat / 4096 - 224) * 4096 + c.toNat / 64 % 64 * 64 +
              c.toNat % 64) = c.toNat from hval, mkUChar, if_pos hv, char_ofNat_toNat]
        · rw [if_neg (by omega), if_neg (by omega), if_neg (by omega)]
          have e1 : (240 + c.toNat / 262144) / 16 < 16 := by omega
          have e2 : (240 + c.toNat / 262144) % 16 < 16 := by omega
          show percentDecodeGo (fuel + 1)
            ('%' :: hexDigitU ((240 + c.toNat / 262144) / 16)
              :: hexDigitU ((240 + c.toNat / 262144) % 16)
              :: (byteHex (128 + c.toNat / 4096 % 64) ++
                  (byteHex (128 + c.toNat / 64 % 64) ++
                   (byteHex (128 + c.toNat % 64) ++ rest)))) = _
          rw [percentDecodeGo_cons_pct, percentDecodeHex_hex e1 e2]
          have hb : 16 * ((240 + c.toNat / 262144) / 16) + (240 + c.toNat / 262144) % 16 =
              240 + c.toNat / 262144 := by omega
          rw [hb, percentDecodeByte, if_neg (by omega), if_neg (by omega),
            if_neg (by omega), if_neg (by omega), if_pos (by omega), percentDecodeCont3,
            readContByte_byteHex (by omega)]
          dsimp only
          rw [readContByte_byteHex (by omega)]
          dsimp only
          rw [readContByte_byteHex (by omega)]
          dsimp only
          have hval : (240 + c.toNat / 262144 - 240) * 262144 + c.toNat / 4096 % 64 * 4096 +
              c.toNat / 64 % 64 * 64 + c.toNat % 64 = c.toNat := by omega
          rw [show ((240 + c.toNat / 262144 - 240) * 262144 + c.toNat / 4096 % 64 * 4096 +
              c.toNat / 64 % 64 * 64 + c.toNat % 64) = c.toNat from hval,
            mkUChar, if_pos hv, char_ofNat_toNat]

theorem percentDecode_enc_generic (s : JStr) :
    ∀ fuel, s.length ≤ fuel → percentDecodeGo fuel (encodeURIComponentJS s) = some s := by
  induction s with
  | nil =>
    intro fuel _
    cases fuel <;> rfl
  | cons c rest ih =>
    intro fuel hf
    match fuel, hf with
    | fuel + 1, hf =>
      have he : encodeURIComponentJS (c :: rest) =
          encChar c ++ encodeURIComponentJS rest := by
        simp [encodeURIComponentJS]
      rw [he, percentDecode_encChar, ih fuel (by simpa using hf)]
      rfl

theorem length_le_encodeURIComponent (s : JStr) :
    s.length ≤ (encodeURIComponentJS s).length := by
  unfold encodeURIComponentJS
  induction s with
  | nil => simp
  | cons c rest ih =>
    simp only [List.flatMap_cons, List.length_append, List.length_cons]
    have hc : 1 ≤ (encChar c).length := by
      unfold encChar
      by_cases hu : uriUnreserved c
      · simp [hu]
      · rw [if_neg hu]
        unfold utf8Bytes byteHex
        split_ifs <;> simp
    omega

theorem decode_encodeURIComponent (s : JStr) :
    decodeURIComponentJS (encodeURIComponentJS s) = some s := by
  unfold decodeURIComponentJS
  exact percentDecode_enc_generic s _ (length_le_encodeURIComponent s)

theorem utf8Bytes_lt_256 (c : Char) : ∀ b ∈ utf8Bytes c, b < 256 := by
  intro b hb
  have hv : c.toNat.isValidChar := c.valid
  have h4 : c.toNat < 1114112 := by rcases hv with h | h <;> omega
  unfold utf8Bytes at hb
  split_ifs at hb <;> simp only [List.mem_cons, List.mem_singleton,
    List.not_mem_nil, or_false] at hb
  · omega
  · rcases hb with rfl | rfl <;> omega
  · rcases hb with rfl | rfl | rfl <;> omega
  · rcases hb with rfl | rfl | rfl | rfl <;> omega

theorem hexDigitU_not_sep : ∀ d < 16,
    hexDigitU d ∉ ([';', ':', ',', '@', '~'] : List Char) := by decide

theorem mem_encodeURIComponent {s : JStr} {c : Char} (hc : c ∈ encodeURIComponentJS s) :
    uriUnreserved c = true ∨ c = '%' ∨ ∃ d < 16, c = hexDigitU d := by
  unfold encodeURIComponentJS at hc
  rw [List.mem_flatMap] at hc
  obtain ⟨c0, _, hc0⟩ := hc
  unfold encChar at hc0
  by_cases hu : uriUnreserved c0
  · rw [if_pos hu] at hc0
    simp at hc0
    subst hc0
    exact Or.inl hu
  · rw [if_neg hu] at hc0
    rw [List.mem_flatMap] at hc0
    obtain ⟨b, hb, hcb⟩ := hc0
    have hb256 : b < 256 := utf8Bytes_lt_256 c0 b hb
    unfold byteHex at hcb
    simp only [List.mem_cons, List.not_mem_nil, or_false] at hcb
    rcases hcb with rfl | rfl | rfl
    · exact Or.inr (Or.inl rfl)
    · exact Or.inr (Or.inr ⟨b / 16, by omega, rfl⟩)
    · exact Or.inr (Or.inr ⟨b % 16, by omega, rfl⟩)

theorem semicolon_not_mem_encodeURIComponent (s : JStr) :
    ';' ∉ encodeURIComponentJS s := by
  intro hm
  rcases mem_encodeURIComponent hm with h | h | ⟨d, hd, h⟩
  · revert h; decide
  · revert h; decide
  · exact hexDigitU_not_sep d hd (h ▸ List.mem_cons_self _ _)


/- ---------------------------------------------------------------------
History helper lemmas and claims C6 / C10.
--------------------------------------------------------------------- -/

theorem saveCheckpoint_length (qs : String) (s : HistoryState)
    (h : s.stack.length ≤ 100) : (saveCheckpoint qs s).stack.length ≤ 100 := by
  unfold saveCheckpoint
  split
  · exact h
  · dsimp only
    split
    · next hlen =>
      simp only [List.length_drop]
      omega
    · next hlen =>
      simp only [not_lt] at hlen
      simpa using hlen

theorem historyInv_save (qs : String) (s : HistoryState) (h : historyInv s) :
    historyInv (saveCheckpoint qs s) := by
  obtain ⟨hne, hlen, hi0, hi1⟩ := h
  unfold saveCheckpoint
  split
  · exact ⟨hne, hlen, hi0, hi1⟩
  · dsimp only
    have hlt : (s.stack.take (s.index + 1).toNat ++ [qs]).length =
        min (s.index + 1).toNat s.stack.length + 1 := by
      simp [List.length_take]
    split
    · next hbig =>
      refine ⟨?_, ?_, ?_, le_refl _⟩ <;> dsimp only
      · rw [← List.length_pos, List.length_drop]
        omega
      · rw [List.length_drop]
        omega
      · rw [List.length_drop]
        omega
    · next hsmall =>
      rw [not_lt] at hsmall
      have h1 : 1 ≤ (List.take (s.index + 1).toNat s.stack ++ [qs]).length := by
        simp
      refine ⟨?_, ?_, ?_, ?_⟩ <;> dsimp only
      · rw [← List.length_pos]
        omega
      · exact hsmall
      · omega
      · omega
  
theorem historyInv_undo (s : HistoryState) (h : historyInv s) : historyInv (undo s) := by
  obtain ⟨hne, hlen, hi0, hi1⟩ := h
  unfold undo canUndo
  split
  · next hc =>
    simp only [decide_eq_true_eq] at hc
    exact ⟨hne, hlen, show (0 : ℤ) ≤ s.index - 1 by omega,
      show s.index - 1 ≤ (s.stack.length : ℤ) - 1 by omega⟩
  · exact ⟨hne, hlen, hi0, hi1⟩

theorem historyInv_redo (s : HistoryState) (h : historyInv s) : historyInv (redo s) := by
  obtain ⟨hne, hlen, hi0, hi1⟩ := h
  unfold redo canRedo
  split
  · next hc =>
    simp only [decide_eq_true_eq] at hc
    exact ⟨hne, hlen, show (0 : ℤ) ≤ s.index + 1 by omega,
      show s.index + 1 ≤ (s.stack.length : ℤ) - 1 by omega⟩
  · exact ⟨hne, hlen, hi0, hi1⟩

theorem historyInv_applyOps (qs : String) (ops : List HistoryOp) :
    historyInv (applyOps (initHistoryWithCurrent qs) ops) := by
  have hinit : historyInv (initHistoryWithCurrent qs) := by
    refine ⟨by simp [initHistoryWithCurrent], ?_, ?_, ?_⟩ <;>
      simp [initHistoryWithCurrent]
  have gen : ∀ ops s, historyInv s → historyInv (applyOps s ops) := by
    intro ops
    induction ops with
    | nil => intro s h; exact h
    | cons op rest ih =>
      intro s h
      cases op with
      | checkpoint q => exact ih _ (historyInv_save q s h)
      | undo => exact ih _ (historyInv_undo s h)
      | redo => exact ih _ (historyInv_redo s h)
  exact gen ops _ hinit

theorem historyInv_get (s : HistoryState) (h : historyInv s) :
    (s.stack.get? s.index.toNat).isSome = true := by
  obtain ⟨hne, hlen, hi0, hi1⟩ := h
  have hlt : s.index.toNat < s.stack.length := by omega
  rw [List.get?_eq_get hlt]
  rfl

set_option maxRecDepth 400000

/-- C6: the history stack never exceeds 100 snapshots (a checkpoint keeps
the length within the bound, evicting from the head), and concretely:
initializing with a snapshot and then checkpointing 105 distinct states
leaves exactly 100 entries, and 99 undos land on the 6th pushed state
`"s6"` (states 1-5 having been evicted), not on state `"s1"`. -/
theorem saveCheckpoint_bound_and_eviction :
    (∀ (qs : String) (s : HistoryState), s.stack.length ≤ 100 →
      (saveCheckpoint qs s).stack.length ≤ 100) ∧
    (applyOps (initHistoryWithCurrent "s0") c6Ops).stack.length = 100 ∧
    historyCur (applyOps (applyOps (initHistoryWithCurrent "s0") c6Ops)
      (List.replicate 99 HistoryOp.undo)) = some "s6" ∧
    historyCur (applyOps (applyOps (initHistoryWithCurrent "s0") c6Ops)
      (List.replicate 99 HistoryOp.undo)) ≠ some "s1" := by
  refine ⟨saveCheckpoint_length, by decide, by decide, by decide⟩

/-- C6 witness: the length-bound part applied at a concrete state. -/
theorem saveCheckpoint_bound_and_eviction_witness :
    (saveCheckpoint "t1" (initHistoryWithCurrent "t0")).stack.length ≤ 100 :=
  saveCheckpoint_bound_and_eviction.1 "t1" (initHistoryWithCurrent "t0") (by decide)

/-- C10: every sequence of checkpoint/undo/redo calls after initialization
keeps the history invariant — non-empty stack of at most 100 snapshots and
`0 ≤ index ≤ length − 1` — and consequently the snapshot at the current
index (the one undo/redo re-applies) always exists in the stack. -/
theorem historyInv_reachable (qs : String) (ops : List HistoryOp) :
    historyInv (applyOps (initHistoryWithCurrent qs) ops) ∧
    ((applyOps (initHistoryWithCurrent qs) ops).stack.get?
      (applyOps (initHistoryWithCurrent qs) ops).index.toNat).isSome = true := by
  have h := historyInv_applyOps qs ops
  exact ⟨h, historyInv_get _ h⟩


/- ---------------------------------------------------------------------
Claim C8 — snap idempotence (transform.js snapLocal).
The app always sizes the world to a whole number of cells
(`setWorldSizeCells` in render.js sets `world` to `cols*c × rows*c`
pixels), so the world pixel dimensions are `n*c × m*c` below.
--------------------------------------------------------------------- -/

theorem jsRound_intCast_mul_div (c : ℚ) (hc : 0 < c) (j : ℤ) :
    jsRound ((j : ℚ) * c / c) = j := by
  rw [jsRound, mul_div_assoc, div_self (ne_of_gt hc), mul_one, Int.floor_int_add]
  norm_num

theorem min_mul_right (a b c : ℚ) (hc : 0 < c) : min (a * c) (b * c) = min a b * c := by
  rcases le_total a b with h | h
  · rw [min_eq_left (by exact mul_le_mul_of_nonneg_right h (le_of_lt hc)), min_eq_left h]
  · rw [min_eq_right (by exact mul_le_mul_of_nonneg_right h (le_of_lt hc)), min_eq_right h]

theorem max_mul_right (a b c : ℚ) (hc : 0 < c) : max (a * c) (b * c) = max a b * c := by
  rcases le_total a b with h | h
  · rw [max_eq_right (by exact mul_le_mul_of_nonneg_right h (le_of_lt hc)), max_eq_right h]
  · rw [max_eq_left (by exact mul_le_mul_of_nonneg_right h (le_of_lt hc)), max_eq_left h]

theorem snapAxis_form (c : ℚ) (hc : 0 < c) (ns : ℤ) (k : ℤ) :
    max 0 (min ((k : ℚ) * c) ((ns : ℚ) * c)) = ((max 0 (min k ns) : ℤ) : ℚ) * c := by
  rw [min_mul_right _ _ c hc, show (0 : ℚ) = 0 * c by ring, max_mul_right _ _ c hc]
  push_cast
  ring_nf

theorem snapAxis_idem (c : ℚ) (hc : 0 < c) (n size : ℤ) (q : ℚ) :
    max 0 (min ((jsRound ((max 0 (min ((jsRound (q / c) : ℚ) * c)
        ((n : ℚ) * c - (size : ℚ) * c))) / c) : ℚ) * c)
      ((n : ℚ) * c - (size : ℚ) * c)) =
    max 0 (min ((jsRound (q / c) : ℚ) * c) ((n : ℚ) * c - (size : ℚ) * c)) := by
  have hcast : (n : ℚ) * c - (size : ℚ) * c = ((n - size : ℤ) : ℚ) * c := by
    push_cast
    ring
  set k := jsRound (q / c) with hk
  rw [hcast, snapAxis_form c hc (n - size) k, jsRound_intCast_mul_div c hc,
    snapAxis_form c hc (n - size) _]
  have h : max 0 (min (max 0 (min k (n - size))) (n - size)) = max 0 (min k (n - size)) := by
    omega
  rw [h]

/-- C8: grid snapping is idempotent — for every cell pixel size `c > 0`, a
world sized to whole cells (`n*c × m*c` pixels, as `setWorldSizeCells`
guarantees), every footprint size, and every local point within world
bounds, snapping a snapped point returns it unchanged:
`snapLocal (snapLocal p) = snapLocal p`. -/
theorem snapLocal_idempotent (c : ℚ) (hc : 0 < c) (n m : ℕ) (size : ℤ) (left top : ℚ)
    (_hl0 : 0 ≤ left) (_hl1 : left ≤ (n : ℚ) * c) (_ht0 : 0 ≤ top)
    (_ht1 : top ≤ (m : ℚ) * c) :
    snapLocal ((n : ℚ) * c) ((m : ℚ) * c) c
      (snapLocal ((n : ℚ) * c) ((m : ℚ) * c) c left top size).1
      (snapLocal ((n : ℚ) * c) ((m : ℚ) * c) c left top size).2 size =
    snapLocal ((n : ℚ) * c) ((m : ℚ) * c) c left top size := by
  unfold snapLocal
  dsimp only
  have hx := snapAxis_idem c hc (n : ℤ) size left
  have hy := snapAxis_idem c hc (m : ℤ) size top
  rw [show ((n : ℤ) : ℚ) = (n : ℚ) by push_cast; rfl] at hx
  rw [show ((m : ℤ) : ℚ) = (m : ℚ) by push_cast; rfl] at hy
  rw [Prod.mk.injEq]
  exact ⟨hx, hy⟩

/-- C8 witness: idempotence at the default configuration (1200×1200-cell
world, 48 px cells) for a size-3 block dragged to local point (100, 130). -/
theorem snapLocal_idempotent_witness :
    snapLocal (((1200 : ℕ) : ℚ) * 48) (((1200 : ℕ) : ℚ) * 48) 48
      (snapLocal (((1200 : ℕ) : ℚ) * 48) (((1200 : ℕ) : ℚ) * 48) 48 100 130 3).1
      (snapLocal (((1200 : ℕ) : ℚ) * 48) (((1200 : ℕ) : ℚ) * 48) 48 100 130 3).2 3 =
    snapLocal (((1200 : ℕ) : ℚ) * 48) (((1200 : ℕ) : ℚ) * 48) 48 100 130 3 :=
  snapLocal_idempotent 48 (by norm_num) 1200 1200 3 100 130
    (by norm_num) (by norm_num) (by norm_num) (by norm_num)


/- ---------------------------------------------------------------------
Claim C7 — the concrete RLE scenario.
--------------------------------------------------------------------- -/

/-- C7, counterexample: the claim says the paint cells (0,0), (1,0), (2,0),
(5,1) encode to the row string `0:0-2,5` and that decoding that string
yields exactly those 4 cells.  In fact `(5,1)` lies in row `y = 1`, so the
encoder emits two rows joined by `;`, and decoding `0:0-2,5` puts the run
`5` in row `y = 0`, yielding `(5,0)` rather than `(5,1)`. -/
theorem encodeRedRLE_scenario_refuted :
    encodeRedRLE [(0, 0), (1, 0), (2, 0), (5, 1)] true ≠ jstr "0:0-2,5" ∧
    (5, 1) ∉ decodeRed (jstr "0:0-2,5") true := by
  refine ⟨by decide, by decide⟩

/-- C7, amended: encoding the user paint cells (0,0), (1,0), (2,0), (5,1)
with the row-wise RLE produces `0:0-2;1:5` (row `y=0` holds the run `0-2`,
row `y=1` the single `5`), and decoding that string yields exactly those 4
cells. -/
theorem encodeRedRLE_scenario :
    encodeRedRLE [(0, 0), (1, 0), (2, 0), (5, 1)] true = jstr "0:0-2;1:5" ∧
    decodeRed (jstr "0:0-2;1:5") true = [(0, 0), (1, 0), (2, 0), (5, 1)] := by
  refine ⟨by decide, by decide⟩


/- ---------------------------------------------------------------------
Decode-tolerance lemmas (claim C2) and helpers shared with the round trip.
--------------------------------------------------------------------- -/

theorem jsIncludes_iff {s : JStr} {c : Char} : jsIncludes s c = true ↔ c ∈ s := by
  unfold jsIncludes
  rw [List.contains, List.elem_eq_mem, decide_eq_true_eq]

theorem jsIncludes_false {s : JStr} {c : Char} (h : c ∉ s) : jsIncludes s c = false := by
  rw [Bool.eq_false_iff]
  intro hc
  exact h (jsIncludes_iff.mp hc)

theorem mem_toB36_ne {n : ℕ} {c : Char}
    (hc : c ∈ toB36 n) : c ≠ ';' ∧ c ≠ ':' ∧ c ≠ ',' ∧ c ≠ '@' ∧ c ≠ '~' ∧ c ≠ '-' := by
  have h := mem_toB36_not_sep hc
  simp only [List.mem_cons, List.not_mem_nil, or_false, not_or] at h
  exact ⟨h.1, h.2.1, h.2.2.1, h.2.2.2.1, h.2.2.2.2.1, h.2.2.2.2.2.1⟩

theorem toB36_ne_nil (n : ℕ) : toB36 n ≠ [] := toRadixGo_ne_nil 36 n n

theorem toDec_ne_nil (n : ℕ) : toDec n ≠ [] := toRadixGo_ne_nil 10 n n

theorem decodeRedRun_single (y : ℤ) (x : ℕ) :
    decodeRedRun true y (toB36 x) = [((x : ℤ), y)] := by
  unfold decodeRedRun
  rw [if_neg (toB36_ne_nil x)]
  rw [jsIncludes_false (fun hm => (mem_toB36_ne hm).2.2.2.2.2 rfl), if_neg (by simp)]
  rw [show ((if true = true then 36 else 10) : ℕ) = 36 from rfl, parseIntJS_toB36 x]

theorem decodeRedRun_range (y : ℤ) (a b : ℕ) (hab : a ≤ b) :
    decodeRedRun true y (toB36 a ++ '-' :: toB36 b) =
      (intRange a b).map (fun x => (x, y)) := by
  unfold decodeRedRun
  have hne : toB36 a ++ '-' :: toB36 b ≠ [] := by simp
  rw [if_neg hne]
  have hin : jsIncludes (toB36 a ++ '-' :: toB36 b) '-' = true :=
    jsIncludes_iff.mpr (by simp)
  rw [hin, if_pos rfl]
  have hsplit : jsSplitCh '-' (toB36 a ++ '-' :: toB36 b) = [toB36 a, toB36 b] := by
    rw [jsSplitCh_append (fun hm => (mem_toB36_ne hm).2.2.2.2.2 rfl),
      jsSplitCh_no_sep (fun hm => (mem_toB36_ne hm).2.2.2.2.2 rfl)]
  rw [hsplit]
  dsimp only [List.headD, List.get?]
  rw [show ((if true = true then 36 else 10) : ℕ) = 36 from rfl]
  rw [show (some (toB36 b)).getD (jstr "undefined") = toB36 b from rfl]
  rw [parseIntJS_toB36 a, parseIntJS_toB36 b]
  dsimp only
  rw [min_eq_left (by exact_mod_cast hab), max_eq_right (by exact_mod_cast hab)]

theorem decodeRedRow_split (b36 : Bool) {yStr runsStr : JStr}
    (hyc : ':' ∉ yStr) (hrc : ':' ∉ runsStr) (hne : runsStr ≠ []) :
    decodeRedRow b36 (yStr ++ ':' :: runsStr) =
      (match parseIntJS (if b36 then 36 else 10) yStr with
      | none => []
      | some y => (jsSplitCh ',' runsStr).flatMap (decodeRedRun b36 y)) := by
  unfold decodeRedRow
  have hrowne : yStr ++ ':' :: runsStr ≠ [] := by simp
  rw [if_neg hrowne]
  have hsplit : jsSplitCh ':' (yStr ++ ':' :: runsStr) = [yStr, runsStr] := by
    rw [jsSplitCh_append hyc, jsSplitCh_no_sep hrc]
  rw [hsplit]
  dsimp only [List.headD, List.get?]
  rw [if_neg hne]

theorem notmem_append {c : Char} {a b : JStr} (ha : c ∉ a) (hb : c ∉ b) :
    c ∉ a ++ b :=
  fun hm => (List.mem_append.mp hm).elim ha hb

theorem notmem_cons {c d : Char} {t : JStr} (hcd : c ≠ d) (ht : c ∉ t) : c ∉ d :: t :=
  fun hm => (List.mem_cons.mp hm).elim hcd ht

/-- C2, counterexample: the claim fails on object tokens and on labels.
A v2 token whose size field is missing decodes to a block carrying `NaN`
(`none`) as its size instead of being dropped, and a token with a malformed
percent-encoded label makes `deserializeState` throw a `URIError` (the
`Except.error` below), aborting the whole decode. -/
theorem deserializeState_throws_and_keeps_nan :
    deserializeState { v := some (jstr "2"), b := some (jstr "T1@0,0~%"), r := none } =
      .error () ∧
    deserializeState { v := some (jstr "2"), b := some (jstr "T@5,5"), r := none } =
      .ok { blocks := [{ kind := .trap, size := none, width := none, height := none,
                         cx := some 5, cy := some 5, label := none }],
            red := [], ver := jstr "2" } :=
  ⟨rfl, rfl⟩

/-- C2, amended (the true part): in paint decoding (`decodeRed`), a numeric
parse failure drops only the offending unit and never throws.  A malformed
run (here `!`) in the middle of a row is skipped while the runs on both
sides of it still decode, and a row whose `y` prefix fails to parse is
skipped while the remaining rows still decode. -/
theorem decodeRed_drops_bad_units (y x1 x2 : ℕ) :
    decodeRed (toB36 y ++ ':' :: (toB36 x1 ++ ',' :: '!' :: ',' :: toB36 x2)) true =
      [((x1 : ℤ), (y : ℤ)), ((x2 : ℤ), (y : ℤ))] ∧
    decodeRed ('!' :: ':' :: '1' :: ';' :: (toB36 y ++ ':' :: toB36 x1)) true =
      [((x1 : ℤ), (y : ℤ))] := by
  have hb36semi : ∀ n : ℕ, ';' ∉ toB36 n := fun n hm => (mem_toB36_ne hm).1 rfl
  have hb36colon : ∀ n : ℕ, ':' ∉ toB36 n := fun n hm => (mem_toB36_ne hm).2.1 rfl
  have hb36comma : ∀ n : ℕ, ',' ∉ toB36 n := fun n hm => (mem_toB36_ne hm).2.2.1 rfl
  constructor
  · unfold decodeRed
    rw [if_neg (by simp [toB36_ne_nil y])]
    rw [jsIncludes_iff.mpr (by simp), if_pos rfl]
    rw [jsSplitCh_no_sep (notmem_append (hb36semi y) (notmem_cons (by decide)
      (notmem_append (hb36semi x1) (notmem_cons (by decide) (notmem_cons (by decide)
        (notmem_cons (by decide) (hb36semi x2)))))))]
    rw [List.flatMap_cons, List.flatMap_nil, List.append_nil]
    rw [decodeRedRow_split true (hb36colon y)
      (notmem_append (hb36colon x1) (notmem_cons (by decide) (notmem_cons (by decide)
        (notmem_cons (by decide) (hb36colon x2)))))
      (by simp [toB36_ne_nil x1])]
    rw [show ((if true = true then 36 else 10) : ℕ) = 36 from rfl, parseIntJS_toB36 y]
    dsimp only
    have hsplit : jsSplitCh ',' (toB36 x1 ++ ',' :: '!' :: ',' :: toB36 x2) =
        [toB36 x1, ['!'], toB36 x2] := by
      rw [jsSplitCh_append (hb36comma x1)]
      rw [show ('!' :: ',' :: toB36 x2 : JStr) = ['!'] ++ ',' :: toB36 x2 from rfl]
      rw [jsSplitCh_append (by decide)]
      rw [jsSplitCh_no_sep (hb36comma x2)]
    rw [hsplit]
    rw [List.flatMap_cons, List.flatMap_cons, List.flatMap_cons, List.flatMap_nil]
    rw [decodeRedRun_single, decodeRedRun_single]
    rw [show decodeRedRun true (y : ℤ) ['!'] = [] from rfl]
    simp
  · unfold decodeRed
    rw [if_neg (by simp)]
    rw [jsIncludes_iff.mpr (by simp), if_pos rfl]
    rw [show ('!' :: ':' :: '1' :: ';' :: (toB36 y ++ ':' :: toB36 x1) : JStr) =
      ['!', ':', '1'] ++ ';' :: (toB36 y ++ ':' :: toB36 x1) from rfl]
    rw [jsSplitCh_append (by decide)]
    rw [jsSplitCh_no_sep (notmem_append (hb36semi y)
      (notmem_cons (by decide) (hb36semi x1)))]
    rw [List.flatMap_cons, List.flatMap_cons, List.flatMap_nil]
    rw [show decodeRedRow true ['!', ':', '1'] = [] from rfl]
    rw [decodeRedRow_split true (hb36colon y) (hb36colon x1) (by simp [toB36_ne_nil x1])]
    rw [show ((if true = true then 36 else 10) : ℕ) = 36 from rfl, parseIntJS_toB36 y]
    dsimp only
    rw [jsSplitCh_no_sep (hb36comma x1)]
    rw [List.flatMap_cons, List.flatMap_nil]
    rw [decodeRedRun_single]
    simp

/- Part A: sort lemmas -/

theorem insertSorted_perm (x : ℤ) (l : List ℤ) : List.Perm (insertSorted x l) (x :: l) := by
  induction l with
  | nil => exact List.Perm.refl _
  | cons y rest ih =>
    rw [insertSorted]
    split
    · exact List.Perm.refl _
    · exact List.Perm.trans (ih.cons y) (List.Perm.swap x y rest)

theorem insertSorted_sorted {x : ℤ} {l : List ℤ} (h : List.Sorted (· ≤ ·) l) :
    List.Sorted (· ≤ ·) (insertSorted x l) := by
  induction l with
  | nil => simp [insertSorted]
  | cons y rest ih =>
    rw [insertSorted]
    rw [List.sorted_cons] at h
    split
    · next hxy =>
      rw [List.sorted_cons]
      refine ⟨?_, List.sorted_cons.mpr h⟩
      intro b hb
      rcases List.mem_cons.mp hb with rfl | hb
      · exact hxy
      · exact le_trans hxy (h.1 b hb)
    · next hxy =>
      push_neg at hxy
      rw [List.sorted_cons]
      refine ⟨?_, ih h.2⟩
      intro b hb
      rcases List.mem_cons.mp ((insertSorted_perm x rest).mem_iff.mp hb) with rfl | hb
      · exact le_of_lt hxy
      · exact h.1 b hb

theorem sortInts_perm (l : List ℤ) : List.Perm (sortInts l) l := by
  induction l with
  | nil => exact List.Perm.refl _
  | cons x rest ih =>
    exact List.Perm.trans (insertSorted_perm x (sortInts rest)) (ih.cons x)

theorem sortInts_sorted (l : List ℤ) : List.Sorted (· ≤ ·) (sortInts l) := by
  induction l with
  | nil => exact List.sorted_nil
  | cons x rest ih => exact insertSorted_sorted ih

theorem sortInts_pairwise_lt {l : List ℤ} (h : l.Nodup) :
    List.Pairwise (· < ·) (sortInts l) := by
  have hs : List.Pairwise (· ≤ ·) (sortInts l) := sortInts_sorted l
  have hn : (sortInts l).Nodup := (sortInts_perm l).nodup_iff.mpr h
  exact (hs.and hn).imp (fun {a b} hab => lt_of_le_of_ne hab.1 hab.2)

/- Part A: runs lemmas -/

theorem intRange_singleton (x : ℤ) : intRange x x = [x] := by
  unfold intRange
  rw [show (x + 1 - x).toNat = 1 by omega,
    show List.range 1 = [0] from rfl, List.map_cons, List.map_nil]
  norm_num

theorem intRange_snoc {s p : ℤ} (h : s ≤ p + 1) :
    intRange s (p + 1) = intRange s p ++ [p + 1] := by
  unfold intRange
  rw [show (p + 1 + 1 - s).toNat = (p + 1 - s).toNat + 1 by omega]
  rw [List.range_succ, List.map_append]
  simp only [List.map_cons, List.map_nil]
  congr 2
  omega

theorem runsGo_expand :
    ∀ (xs : List ℤ) (acc : List (ℤ × ℤ)) (s p : ℤ),
      s ≤ p → (∀ x ∈ xs, p < x) → List.Pairwise (· < ·) xs →
      (runsGo (some (s, p)) acc xs).flatMap (fun r => intRange r.1 r.2) =
        acc.flatMap (fun r => intRange r.1 r.2) ++ intRange s p ++ xs := by
  intro xs
  induction xs with
  | nil =>
    intro acc s p _ _ _
    rw [runsGo]
    simp
  | cons x rest ih =>
    intro acc s p hsp hbound hpair
    rw [List.pairwise_cons] at hpair
    have hpx : p < x := hbound x (List.mem_cons_self x rest)
    rw [runsGo]
    split
    · next hx =>
      subst hx
      rw [ih acc s (p + 1) (by omega) (fun z hz => hpair.1 z hz) hpair.2]
      rw [intRange_snoc (by omega)]
      simp
    · next hx =>
      rw [ih (acc ++ [(s, p)]) x x le_rfl (fun z hz => hpair.1 z hz) hpair.2]
      rw [List.flatMap_append]
      simp only [List.flatMap_cons, List.flatMap_nil, List.append_nil]
      rw [intRange_singleton]
      simp

theorem runsOf_expand {xs : List ℤ} (h : List.Pairwise (· < ·) xs) :
    (runsOf xs).flatMap (fun r => intRange r.1 r.2) = xs := by
  match xs, h with
  | [], _ => rfl
  | x :: rest, h =>
    rw [List.pairwise_cons] at h
    unfold runsOf
    rw [runsGo]
    rw [runsGo_expand rest [] x x le_rfl (fun z hz => h.1 z hz) h.2]
    simp [intRange_singleton]

theorem runsGo_endpoints :
    ∀ (xs : List ℤ) (acc : List (ℤ × ℤ)) (s p : ℤ),
      (∀ r ∈ acc, 0 ≤ r.1 ∧ r.1 ≤ r.2) → 0 ≤ s → s ≤ p → (∀ x ∈ xs, p < x) →
      List.Pairwise (· < ·) xs →
      ∀ r ∈ runsGo (some (s, p)) acc xs, 0 ≤ r.1 ∧ r.1 ≤ r.2 := by
  intro xs
  induction xs with
  | nil =>
    intro acc s p hacc hs hsp _ _ r hr
    rw [runsGo] at hr
    rcases List.mem_append.mp hr with hr | hr
    · exact hacc r hr
    · simp at hr
      subst hr
      exact ⟨hs, hsp⟩
  | cons x rest ih =>
    intro acc s p hacc hs hsp hbound hpair r hr
    rw [List.pairwise_cons] at hpair
    have hpx : p < x := hbound x (List.mem_cons_self x rest)
    rw [runsGo] at hr
    split at hr
    · next hx =>
      subst hx
      exact ih acc s (p + 1) hacc hs (by omega) (fun z hz => hpair.1 z hz) hpair.2 r hr
    · next hx =>
      refine ih (acc ++ [(s, p)]) x x ?_ (by omega) le_rfl
        (fun z hz => hpair.1 z hz) hpair.2 r hr
      intro r2 hr2
      rcases List.mem_append.mp hr2 with hr2 | hr2
      · exact hacc r2 hr2
      · simp at hr2
        subst hr2
        exact ⟨hs, hsp⟩

theorem runsOf_endpoints {xs : List ℤ} (h : List.Pairwise (· < ·) xs)
    (hpos : ∀ x ∈ xs, 0 ≤ x) : ∀ r ∈ runsOf xs, 0 ≤ r.1 ∧ r.1 ≤ r.2 := by
  match xs with
  | [] => intro r hr; simp [runsOf, runsGo] at hr
  | x :: rest =>
    rw [List.pairwise_cons] at h
    unfold runsOf
    rw [runsGo]
    exact runsGo_endpoints rest [] x x (by simp) (hpos x (List.mem_cons_self x rest))
      le_rfl (fun z hz => h.1 z hz) h.2

theorem runsGo_ne_nil (st : ℤ × ℤ) (acc : List (ℤ × ℤ)) (xs : List ℤ) :
    runsGo (some st) acc xs ≠ [] := by
  induction xs generalizing st acc with
  | nil =>
    obtain ⟨s, p⟩ := st
    rw [runsGo]
    simp
  | cons x rest ih =>
    obtain ⟨s, p⟩ := st
    rw [runsGo]
    split
    · exact ih _ _
    · exact ih _ _

theorem runsOf_ne_nil (x : ℤ) (rest : List ℤ) : runsOf (x :: rest) ≠ [] := by
  unfold runsOf
  rw [runsGo]
  exact runsGo_ne_nil _ _ _

/- Grouping lemmas -/

theorem keysOf_cons (e : ℤ × List ℤ) (m : List (ℤ × List ℤ)) :
    keysOf (e :: m) = e.1 :: keysOf m := rfl

theorem lookupY_addXY (m : List (ℤ × List ℤ)) (y x y2 : ℤ) :
    lookupY (addXY m y x) y2 =
      if y = y2 then lookupY m y2 ++ [x] else lookupY m y2 := by
  induction m with
  | nil =>
    by_cases h : y = y2
    · subst h
      simp [addXY, lookupY]
    · simp [addXY, lookupY, h]
  | cons e rest ih =>
    obtain ⟨y0, xs0⟩ := e
    by_cases h0 : y0 = y
    · subst h0
      by_cases h2 : y0 = y2
      · subst h2
        simp [addXY, lookupY]
      · simp [addXY, lookupY, h2]
    · have hne : ¬ y = y0 := fun he => h0 he.symm
      by_cases h2 : y0 = y2
      · subst h2
        simp [addXY, lookupY, h0, hne]
      · simp [addXY, lookupY, h0, h2, ih]

theorem keysOf_addXY (m : List (ℤ × List ℤ)) (y x : ℤ) :
    keysOf (addXY m y x) = if y ∈ keysOf m then keysOf m else keysOf m ++ [y] := by
  induction m with
  | nil => simp [addXY, keysOf]
  | cons e rest ih =>
    obtain ⟨y0, xs0⟩ := e
    by_cases h0 : y0 = y
    · subst h0
      simp [addXY, keysOf_cons]
    · have hne : ¬ y = y0 := fun he => h0 he.symm
      rw [addXY, if_neg h0, keysOf_cons, keysOf_cons, ih]
      by_cases hm : y ∈ keysOf rest
      · rw [if_pos hm, if_pos (List.mem_cons_of_mem _ hm)]
      · rw [if_neg hm, if_neg (by
          intro hc
          rcases List.mem_cons.mp hc with hc | hc
          · exact hne hc
          · exact hm hc)]
        rfl

theorem lookupY_groupByY (paint : List (ℤ × ℤ)) (y : ℤ) :
    lookupY (groupByY paint) y =
      (paint.filter (fun p => p.2 = y)).map Prod.fst := by
  have gen : ∀ (ps : List (ℤ × ℤ)) (m : List (ℤ × List ℤ)),
      lookupY (ps.foldl (fun m p => addXY m p.2 p.1) m) y =
        lookupY m y ++ (ps.filter (fun p => p.2 = y)).map Prod.fst := by
    intro ps
    induction ps with
    | nil => intro m; simp
    | cons p rest ih =>
      intro m
      obtain ⟨x0, y0⟩ := p
      rw [List.foldl_cons, ih, lookupY_addXY]
      by_cases h : y0 = y
      · subst h
        rw [if_pos rfl, List.filter_cons_of_pos (by simp), List.map_cons,
          List.append_assoc]
        rfl
      · rw [if_neg h, List.filter_cons_of_neg (by simp [h])]
  exact (gen paint []).trans (by rw [lookupY]; simp)

theorem mem_keysOf_groupByY (paint : List (ℤ × ℤ)) (y : ℤ) :
    y ∈ keysOf (groupByY paint) ↔ ∃ x, (x, y) ∈ paint := by
  have gen : ∀ (ps : List (ℤ × ℤ)) (m : List (ℤ × List ℤ)),
      y ∈ keysOf (ps.foldl (fun m p => addXY m p.2 p.1) m) ↔
        y ∈ keysOf m ∨ ∃ x, (x, y) ∈ ps := by
    intro ps
    induction ps with
    | nil => intro m; simp
    | cons p rest ih =>
      intro m
      obtain ⟨x0, y0⟩ := p
      rw [List.foldl_cons, ih, keysOf_addXY]
      by_cases hm : y0 ∈ keysOf m
      · rw [if_pos hm]
        constructor
        · rintro (h | h)
          · exact Or.inl h
          · exact Or.inr (by
              obtain ⟨x, hx⟩ := h
              exact ⟨x, List.mem_cons_of_mem _ hx⟩)
        · rintro (h | ⟨x, hx⟩)
          · exact Or.inl h
          · rcases List.mem_cons.mp hx with he | hx
            · have h1 : y = y0 := congrArg Prod.snd he
              subst h1
              exact Or.inl hm
            · exact Or.inr ⟨x, hx⟩
      · rw [if_neg hm]
        rw [List.mem_append]
        constructor
        · rintro ((h | h) | h)
          · exact Or.inl h
          · simp at h
            subst h
            exact Or.inr ⟨x0, List.mem_cons_self _ _⟩
          · obtain ⟨x, hx⟩ := h
            exact Or.inr ⟨x, List.mem_cons_of_mem _ hx⟩
        · rintro (h | ⟨x, hx⟩)
          · exact Or.inl (Or.inl h)
          · rcases List.mem_cons.mp hx with he | hx
            · have h1 : y = y0 := congrArg Prod.snd he
              subst h1
              exact Or.inl (Or.inr (by simp))
            · exact Or.inr ⟨x, hx⟩
  exact (gen paint []).trans (by simp [keysOf])

theorem keysOf_groupByY_nodup (paint : List (ℤ × ℤ)) :
    (keysOf (groupByY paint)).Nodup := by
  have gen : ∀ (ps : List (ℤ × ℤ)) (m : List (ℤ × List ℤ)),
      (keysOf m).Nodup → (keysOf (ps.foldl (fun m p => addXY m p.2 p.1) m)).Nodup := by
    intro ps
    induction ps with
    | nil => intro m h; exact h
    | cons p rest ih =>
      intro m h
      obtain ⟨x0, y0⟩ := p
      rw [List.foldl_cons]
      apply ih
      rw [keysOf_addXY]
      by_cases hm : y0 ∈ keysOf m
      · rw [if_pos hm]; exact h
      · rw [if_neg hm]
        rw [List.nodup_append]
        exact ⟨h, List.nodup_singleton y0, by
          intro a ha hb
          simp at hb
          subst hb
          exact hm ha⟩
  exact gen paint [] (by simp [keysOf])

theorem row_mem (paint : List (ℤ × ℤ)) (y x : ℤ) :
    x ∈ lookupY (groupByY paint) y ↔ (x, y) ∈ paint := by
  rw [lookupY_groupByY]
  simp only [List.mem_map, List.mem_filter, decide_eq_true_eq]
  constructor
  · rintro ⟨p, ⟨hp, hpy⟩, rfl⟩
    rwa [show (p.1, y) = p by rw [← hpy]]
  · intro h
    exact ⟨(x, y), ⟨h, rfl⟩, rfl⟩

theorem row_nodup {paint : List (ℤ × ℤ)} (h : paint.Nodup) (y : ℤ) :
    (lookupY (groupByY paint) y).Nodup := by
  rw [lookupY_groupByY]
  apply List.Nodup.map_on
  · intro p hp q hq hpq
    rw [List.mem_filter, decide_eq_true_eq] at hp hq
    obtain ⟨p1, p2⟩ := p
    obtain ⟨q1, q2⟩ := q
    simp only at hpq hp hq
    rw [hpq, hp.2, hq.2]
  · exact h.filter _

/- Run and row round trip -/

theorem toB36Int_nonneg {n : ℤ} (h : 0 ≤ n) : toB36Int n = toB36 n.toNat := by
  unfold toB36Int
  rw [if_neg (by omega)]

theorem parseIntJS_toB36Int {n : ℤ} (h : 0 ≤ n) :
    parseIntJS 36 (toB36Int n) = some n := by
  rw [toB36Int_nonneg h, parseIntJS_toB36 n.toNat]
  congr 1
  omega

theorem mem_toB36Int_ne {n : ℤ} (h : 0 ≤ n) {c : Char} (hc : c ∈ toB36Int n) :
    c ≠ ';' ∧ c ≠ ':' ∧ c ≠ ',' ∧ c ≠ '@' ∧ c ≠ '~' ∧ c ≠ '-' := by
  rw [toB36Int_nonneg h] at hc
  exact mem_toB36_ne hc

theorem toB36Int_ne_nil (n : ℤ) : toB36Int n ≠ [] := by
  unfold toB36Int
  split
  · simp
  · exact toB36_ne_nil _

theorem encodeRun_true (r : ℤ × ℤ) :
    encodeRun true r =
      if r.1 = r.2 then toB36Int r.1 else toB36Int r.1 ++ '-' :: toB36Int r.2 := by
  unfold encodeRun
  simp

theorem decodeRedRun_encodeRun (y a b : ℤ) (h0 : 0 ≤ a) (hab : a ≤ b) :
    decodeRedRun true y (encodeRun true (a, b)) =
      (intRange a b).map (fun x => (x, y)) := by
  rw [encodeRun_true]
  dsimp only
  by_cases he : a = b
  · subst he
    rw [if_pos rfl, toB36Int_nonneg h0, decodeRedRun_single y a.toNat,
      intRange_singleton]
    simp
    omega
  · rw [if_neg he, toB36Int_nonneg h0, toB36Int_nonneg (by omega)]
    rw [decodeRedRun_range y a.toNat b.toNat (by omega)]
    rw [show ((a.toNat : ℤ)) = a by omega, show ((b.toNat : ℤ)) = b by omega]

theorem encodeRun_ne_nil (r : ℤ × ℤ) : encodeRun true r ≠ [] := by
  rw [encodeRun_true]
  split
  · exact toB36Int_ne_nil _
  · simp

theorem mem_encodeRun_ne {r : ℤ × ℤ} (h1 : 0 ≤ r.1) (h2 : 0 ≤ r.2) {c : Char}
    (hc : c ∈ encodeRun true r) : c ≠ ';' ∧ c ≠ ':' ∧ c ≠ ',' := by
  rw [encodeRun_true] at hc
  split at hc
  · have := mem_toB36Int_ne h1 hc
    exact ⟨this.1, this.2.1, this.2.2.1⟩
  · rcases List.mem_append.mp hc with hm | hm
    · have := mem_toB36Int_ne h1 hm
      exact ⟨this.1, this.2.1, this.2.2.1⟩
    · rcases List.mem_cons.mp hm with rfl | hm
      · exact ⟨by decide, by decide, by decide⟩
      · have := mem_toB36Int_ne h2 hm
        exact ⟨this.1, this.2.1, this.2.2.1⟩

theorem mem_jsJoin {sep : Char} {parts : List JStr} {c : Char}
    (hc : c ∈ jsJoin sep parts) : c = sep ∨ ∃ p ∈ parts, c ∈ p := by
  induction parts with
  | nil => simp [jsJoin] at hc
  | cons p rest ih =>
    match rest with
    | [] =>
      exact Or.inr ⟨p, List.mem_cons_self _ _, hc⟩
    | q :: t =>
      rw [show jsJoin sep (p :: q :: t) = p ++ sep :: jsJoin sep (q :: t) from rfl] at hc
      rcases List.mem_append.mp hc with hm | hm
      · exact Or.inr ⟨p, List.mem_cons_self _ _, hm⟩
      · rcases List.mem_cons.mp hm with rfl | hm
        · exact Or.inl rfl
        · rcases ih hm with h | ⟨p2, hp2, hcp2⟩
          · exact Or.inl h
          · exact Or.inr ⟨p2, List.mem_cons_of_mem _ hp2, hcp2⟩

theorem mem_jsJoin_of_mem {sep : Char} {parts : List JStr} {p : JStr} {c : Char}
    (hp : p ∈ parts) (hc : c ∈ p) : c ∈ jsJoin sep parts := by
  induction parts with
  | nil => simp at hp
  | cons q rest ih =>
    match rest with
    | [] =>
      rcases List.mem_cons.mp hp with rfl | hm
      · exact hc
      · simp at hm
    | r :: t =>
      rw [show jsJoin sep (q :: r :: t) = q ++ sep :: jsJoin sep (r :: t) from rfl]
      rcases List.mem_cons.mp hp with rfl | hm
      · exact List.mem_append.mpr (Or.inl hc)
      · exact List.mem_append.mpr (Or.inr (List.mem_cons_of_mem _ (ih hm)))

theorem jsJoin_ne_nil {sep : Char} {parts : List JStr} (hne : parts ≠ [])
    (hpne : ∀ p ∈ parts, p ≠ []) : jsJoin sep parts ≠ [] := by
  match parts with
  | [] => exact absurd rfl hne
  | [p] => exact hpne p (List.mem_cons_self _ _)
  | p :: q :: t =>
    rw [show jsJoin sep (p :: q :: t) = p ++ sep :: jsJoin sep (q :: t) from rfl]
    simp

theorem flatMap_congr {α β : Type} {l : List α} {f g : α → List β}
    (h : ∀ a ∈ l, f a = g a) : l.flatMap f = l.flatMap g := by
  induction l with
  | nil => rfl
  | cons a rest ih =>
    rw [List.flatMap_cons, List.flatMap_cons, h a (List.mem_cons_self _ _),
      ih (fun a ha => h a (List.mem_cons_of_mem _ ha))]

theorem decodeRow_encodeRow (y : ℤ) (hy : 0 ≤ y) (xs : List ℤ) (hne : xs ≠ [])
    (hnodup : xs.Nodup) (hpos : ∀ x ∈ xs, 0 ≤ x) :
    decodeRedRow true (encodeRow true y xs) =
      (sortInts xs).map (fun x => (x, y)) := by
  have hpair : List.Pairwise (· < ·) (sortInts xs) := sortInts_pairwise_lt hnodup
  have hpos2 : ∀ x ∈ sortInts xs, 0 ≤ x := fun x hx =>
    hpos x ((sortInts_perm xs).mem_iff.mp hx)
  have hsne : sortInts xs ≠ [] := by
    intro h
    exact hne (List.eq_nil_of_length_eq_zero (by
      rw [← (sortInts_perm xs).length_eq, h, List.length_nil]))
  have hrends : ∀ r ∈ runsOf (sortInts xs), 0 ≤ r.1 ∧ r.1 ≤ r.2 :=
    runsOf_endpoints hpair hpos2
  have hrne : runsOf (sortInts xs) ≠ [] := by
    match hs : sortInts xs, hsne with
    | x :: rest, _ => exact hs ▸ runsOf_ne_nil x rest
  have hrow : encodeRow true y xs =
      toB36 y.toNat ++ ':' ::
        jsJoin ',' ((runsOf (sortInts xs)).map (encodeRun true)) := by
    unfold encodeRow
    simp [toB36Int_nonneg hy]
  rw [hrow]
  rw [decodeRedRow_split true (fun hm => (mem_toB36_ne hm).2.1 rfl)
    (by
      intro hm
      rcases mem_jsJoin hm with h | ⟨p, hp, hcp⟩
      · exact absurd h (by decide)
      · obtain ⟨r, hr, rfl⟩ := List.mem_map.mp hp
        exact (mem_encodeRun_ne (hrends r hr).1 (le_trans (hrends r hr).1
          (hrends r hr).2) hcp).2.1 rfl)
    (jsJoin_ne_nil (by
      intro h
      exact hrne (List.map_eq_nil_iff.mp h))
      (by
        intro p hp
        obtain ⟨r, hr, rfl⟩ := List.mem_map.mp hp
        exact encodeRun_ne_nil r))]
  rw [show ((if true = true then 36 else 10) : ℕ) = 36 from rfl, parseIntJS_toB36 y.toNat]
  rw [show ((y.toNat : ℤ)) = y by omega]
  dsimp only
  rw [jsSplitCh_join (by
      intro h
      exact hrne (List.map_eq_nil_iff.mp h))
    (by
      intro p hp hm
      obtain ⟨r, hr, rfl⟩ := List.mem_map.mp hp
      exact (mem_encodeRun_ne (hrends r hr).1 (le_trans (hrends r hr).1
        (hrends r hr).2) hm).2.2 rfl)]
  rw [List.flatMap_map]
  rw [flatMap_congr (fun r hr => by
    show decodeRedRun true y (encodeRun true r) = (intRange r.1 r.2).map (fun x => (x, y))
    rw [show encodeRun true r = encodeRun true (r.1, r.2) from rfl]
    exact decodeRedRun_encodeRun y r.1 r.2 (hrends r hr).1 (hrends r hr).2)]
  rw [← List.map_flatMap]
  rw [runsOf_expand hpair]

/- Top-level paint round trip -/

theorem mem_encodeRow {y : ℤ} (hy : 0 ≤ y) {xs : List ℤ} {c : Char}
    (hrends : ∀ r ∈ runsOf (sortInts xs), 0 ≤ r.1 ∧ r.1 ≤ r.2)
    (hc : c ∈ encodeRow true y xs) : c ≠ ';' := by
  unfold encodeRow at hc
  dsimp only at hc
  rw [if_pos rfl, toB36Int_nonneg hy] at hc
  rcases List.mem_append.mp hc with hm | hm
  · exact (mem_toB36_ne hm).1
  · rcases List.mem_cons.mp hm with rfl | hm
    · decide
    · rcases mem_jsJoin hm with h | ⟨p, hp, hcp⟩
      · subst h; decide
      · obtain ⟨r, hr, rfl⟩ := List.mem_map.mp hp
        exact (mem_encodeRun_ne (hrends r hr).1
          (le_trans (hrends r hr).1 (hrends r hr).2) hcp).1

theorem decodeRed_encodeRedRLE {paint : List (ℤ × ℤ)} (hv : ValidPaint paint) :
    ∀ q : ℤ × ℤ, q ∈ decodeRed (encodeRedRLE paint true) true ↔ q ∈ paint := by
  obtain ⟨hnodup, hpos⟩ := hv
  intro q
  match hpaint : paint with
  | [] => simp [encodeRedRLE, decodeRed]
  | p0 :: prest =>
    rw [← hpaint] at hnodup hpos ⊢
    have hpne : paint ≠ [] := by rw [hpaint]; simp
    -- names for the encoder pieces
    have henc : encodeRedRLE paint true =
        jsJoin ';' ((sortInts (keysOf (groupByY paint))).map
          (fun y => encodeRow true y (lookupY (groupByY paint) y))) := by
      unfold encodeRedRLE
      rw [if_neg hpne]
    set byY := groupByY paint with hbyY
    set ys := sortInts (keysOf byY) with hys
    -- properties of each row
    have hymem : ∀ y ∈ ys, ∃ x, (x, y) ∈ paint := by
      intro y hy
      exact (mem_keysOf_groupByY paint y).mp ((sortInts_perm _).mem_iff.mp hy)
    have hypos : ∀ y ∈ ys, 0 ≤ y := by
      intro y hy
      obtain ⟨x, hx⟩ := hymem y hy
      exact (hpos (x, y) hx).2
    have hrowne : ∀ y ∈ ys, lookupY byY y ≠ [] := by
      intro y hy
      obtain ⟨x, hx⟩ := hymem y hy
      exact List.ne_nil_of_mem ((row_mem paint y x).mpr hx)
    have hrownodup : ∀ y, (lookupY byY y).Nodup := fun y => row_nodup hnodup y
    have hrowpos : ∀ y, ∀ x ∈ lookupY byY y, 0 ≤ x := by
      intro y x hx
      exact (hpos (x, y) ((row_mem paint y x).mp hx)).1
    have hrends : ∀ y ∈ ys, ∀ r ∈ runsOf (sortInts (lookupY byY y)), 0 ≤ r.1 ∧ r.1 ≤ r.2 := by
      intro y hy
      exact runsOf_endpoints (sortInts_pairwise_lt (hrownodup y))
        (fun x hx => hrowpos y x ((sortInts_perm _).mem_iff.mp hx))
    have hysne : ys ≠ [] := by
      have : p0.2 ∈ keysOf byY := by
        rw [hbyY]
        exact (mem_keysOf_groupByY paint p0.2).mpr ⟨p0.1, by rw [hpaint]; simp⟩
      intro h
      rw [hys] at h
      have := (sortInts_perm (keysOf byY)).mem_iff.mpr this
      rw [h] at this
      simp at this
    -- the decode side
    rw [henc]
    have hcolon : ':' ∈ jsJoin ';' (ys.map (fun y => encodeRow true y (lookupY byY y))) := by
      match hysm : ys, hysne with
      | y0 :: yrest, _ =>
        apply mem_jsJoin_of_mem (p := encodeRow true y0 (lookupY byY y0))
        · rw [List.map_cons]
          exact List.mem_cons_self _ _
        · unfold encodeRow
          dsimp only
          rw [if_pos rfl]
          exact List.mem_append.mpr (Or.inr (List.mem_cons_self _ _))
    unfold decodeRed
    rw [if_neg (List.ne_nil_of_mem hcolon), jsIncludes_iff.mpr hcolon, if_pos rfl]
    rw [jsSplitCh_join (by
        intro h
        rw [List.map_eq_nil_iff] at h
        exact hysne h)
      (by
        intro row hrow hm
        obtain ⟨y, hy, rfl⟩ := List.mem_map.mp hrow
        exact mem_encodeRow (hypos y hy) (hrends y hy) hm rfl)]
    rw [List.flatMap_map]
    rw [flatMap_congr (fun y hy => by
      show decodeRedRow true (encodeRow true y (lookupY byY y)) = _
      exact decodeRow_encodeRow y (hypos y hy) (lookupY byY y) (hrowne y hy)
        (hrownodup y) (fun x hx => hrowpos y x hx))]
    -- membership chase
    rw [List.mem_flatMap]
    constructor
    · rintro ⟨y, hy, hq⟩
      obtain ⟨x, hx, rfl⟩ := List.mem_map.mp hq
      exact (row_mem paint y x).mp ((sortInts_perm _).mem_iff.mp hx)
    · intro hq
      refine ⟨q.2, ?_, ?_⟩
      · rw [hys]
        apply (sortInts_perm _).mem_iff.mpr
        rw [hbyY]
        exact (mem_keysOf_groupByY paint q.2).mpr ⟨q.1, by
          rwa [show (q.1, q.2) = q from rfl]⟩
      · apply List.mem_map.mpr
        refine ⟨q.1, ?_, rfl⟩
        apply (sortInts_perm _).mem_iff.mpr
        rw [hbyY]
        exact (row_mem paint q.2 q.1).mpr (by
          rwa [show (q.1, q.2) = q from rfl])

/- Token round trip -/

theorem findIdxGo_append {ch : Char} {b : JStr} :
    ∀ (a : JStr) (i : ℕ), ch ∉ a →
      List.findIdx? (fun x => x = ch) (a ++ ch :: b) i = some (i + a.length) := by
  intro a
  induction a with
  | nil =>
    intro i _
    rw [List.nil_append, List.findIdx?]
    simp
  | cons c0 rest ih =>
    intro i h
    have hc0 : ¬ (c0 = ch) := fun he => h (he ▸ List.mem_cons_self c0 rest)
    rw [List.cons_append, List.findIdx?]
    rw [if_neg (by simp [hc0])]
    rw [ih (i + 1) (fun hm => h (List.mem_cons_of_mem _ hm))]
    congr 1
    simp
    omega

theorem jsIndexOf_append {ch : Char} {a b : JStr} (h : ch ∉ a) :
    jsIndexOf (a ++ ch :: b) ch = some a.length := by
  unfold jsIndexOf
  rw [findIdxGo_append a 0 h]
  congr 1
  omega

theorem findIdxGo_none {ch : Char} :
    ∀ (s : JStr) (i : ℕ), ch ∉ s → List.findIdx? (fun x => x = ch) s i = none := by
  intro s
  induction s with
  | nil => intro i _; rfl
  | cons c0 rest ih =>
    intro i h
    have hc0 : ¬ (c0 = ch) := fun he => h (he ▸ List.mem_cons_self c0 rest)
    rw [List.findIdx?]
    rw [if_neg (by simp [hc0])]
    exact ih (i + 1) (fun hm => h (List.mem_cons_of_mem _ hm))

theorem jsIndexOf_none {ch : Char} {s : JStr} (h : ch ∉ s) : jsIndexOf s ch = none := by
  unfold jsIndexOf
  exact findIdxGo_none s 0 h

theorem take_append_cons {a b : JStr} {ch : Char} : (a ++ ch :: b).take a.length = a := by
  rw [List.take_append_eq_append_take, List.take_length]
  simp

theorem drop_append_cons {a b : JStr} {ch : Char} :
    (a ++ ch :: b).drop (a.length + 1) = b := by
  rw [show a ++ ch :: b = (a ++ [ch]) ++ b by simp,
    show a.length + 1 = (a ++ [ch]).length by simp]
  exact List.drop_left _ _

theorem parseCoord_true (s : Option JStr) :
    parseCoord true s = parseIntJS 36 (s.getD (jstr "undefined")) := by
  unfold parseCoord
  simp

theorem code_roundtrip {k : Kind}
    (hk : k = .flag ∨ k = .hq ∨ k = .city ∨ k = .resource ∨ k = .trap ∨ k = .custom) :
    CODE_TO_KIND ((KIND_TO_CODE k).getD 'B') = some k := by
  rcases hk with rfl | rfl | rfl | rfl | rfl | rfl <;> rfl

theorem code_ne_block {k : Kind}
    (hk : k = .flag ∨ k = .hq ∨ k = .city ∨ k = .resource ∨ k = .trap ∨ k = .custom) :
    ¬ (k = Kind.block) := by
  rcases hk with rfl | rfl | rfl | rfl | rfl | rfl <;> decide

theorem code_not_at {k : Kind}
    (hk : k = .flag ∨ k = .hq ∨ k = .city ∨ k = .resource ∨ k = .trap ∨ k = .custom) :
    ((KIND_TO_CODE k).getD 'B') ≠ '@' ∧ ((KIND_TO_CODE k).getD 'B') ≠ ';' := by
  rcases hk with rfl | rfl | rfl | rfl | rfl | rfl <;> exact ⟨by decide, by decide⟩

theorem jsRound_natCast_mul_div (c : ℚ) (hc : 0 < c) (n : ℕ) :
    jsRound ((n : ℚ) * c / c) = (n : ℤ) := by
  have h := jsRound_intCast_mul_div c hc (n : ℤ)
  rwa [show (((n : ℤ) : ℚ)) = (n : ℚ) by push_cast; rfl] at h

theorem serializeBlockToken_eq (c : ℚ) (hc : 0 < c) (b : Block) (cx0 cy0 : ℕ)
    (hl : b.left = (cx0 : ℚ) * c) (ht : b.top = (cy0 : ℚ) * c) :
    serializeBlockToken c b =
      ((KIND_TO_CODE b.kind).getD 'B') ::
        ((if b.kind = .custom then toB36 b.widthOr ++ 'x' :: toB36 b.heightOr
          else toB36 b.size) ++
         '@' :: (toB36 cx0 ++ ',' :: (toB36 cy0 ++ labelSuffix (persistedLabel b)))) := by
  unfold serializeBlockToken persistedLabel
  rw [hl, ht, jsRound_natCast_mul_div c hc, jsRound_natCast_mul_div c hc]
  dsimp only
  rw [toB36Int_nonneg (Int.natCast_nonneg cx0), toB36Int_nonneg (Int.natCast_nonneg cy0),
    Int.toNat_natCast, Int.toNat_natCast]
  by_cases hcity : b.kind = .city
  · rw [hcity]
    simp only [reduceIte]
    split
    · next hcond => simp [hcond, labelSuffix, List.append_assoc]
    · next hcond => simp [hcond, labelSuffix, List.append_assoc]
  · by_cases hcust : b.kind = .custom
    · rw [hcust]
      simp only [reduceIte]
      split
      · next hcond => exact absurd hcond (by decide)
      · split
        · next hcond => simp [hcond, labelSuffix, List.append_assoc]
        · next hcond => simp [hcond, labelSuffix, List.append_assoc]
    · rw [if_neg hcity, if_neg hcust, if_neg hcity, if_neg hcust, if_neg hcust]
      simp [labelSuffix, List.append_assoc, if_neg hcust]

theorem parseToken_spine (code : Char) (sf : JStr) (cx0 cy0 : ℕ) (lab : Option JStr)
    (hqc : code ≠ '@') (hsf : '@' ∉ sf) :
    parseToken true (code :: (sf ++ '@' :: (toB36 cx0 ++ ',' :: (toB36 cy0 ++
        labelSuffix lab)))) =
      (let kind0 := (CODE_TO_KIND code).getD .block
       let kind := if kind0 = .block then Kind.custom else kind0
       if kind = .custom ∧ jsIncludes sf 'x' then
         let wh := jsSplitCh 'x' sf
         let width := parseIntJS 36 (wh.headD [])
         let height := parseIntJS 36 ((wh.get? 1).getD (jstr "undefined"))
         let size :=
           match width, height with
           | some w, some h => some (max w h)
           | _, _ => none
         Except.ok [{ kind := kind, size := size, width := width, height := height,
                      cx := some (cx0 : ℤ), cy := some (cy0 : ℤ), label := lab }]
       else
         let size := parseIntJS 36 sf
         if kind = .custom then
           Except.ok [{ kind := kind, size := size, width := size, height := size,
                        cx := some (cx0 : ℤ), cy := some (cy0 : ℤ), label := lab }]
         else
           Except.ok [{ kind := kind, size := size, cx := some (cx0 : ℤ),
                        cy := some (cy0 : ℤ), label := lab }]) := by
  have hat : '@' ∉ code :: sf := notmem_cons (fun he => hqc he.symm) hsf
  have hx0 : '~' ∉ toB36 cx0 := fun hm => (mem_toB36_ne hm).2.2.2.2.1 rfl
  have hy0 : '~' ∉ toB36 cy0 := fun hm => (mem_toB36_ne hm).2.2.2.2.1 rfl
  have hcx : ',' ∉ toB36 cx0 := fun hm => (mem_toB36_ne hm).2.2.1 rfl
  have hcy : ',' ∉ toB36 cy0 := fun hm => (mem_toB36_ne hm).2.2.1 rfl
  have hnot : '~' ∉ toB36 cx0 ++ ',' :: toB36 cy0 :=
    notmem_append hx0 (notmem_cons (by decide) hy0)
  have h6 : jsSplitCh ',' (toB36 cx0 ++ ',' :: toB36 cy0) = [toB36 cx0, toB36 cy0] := by
    rw [jsSplitCh_append hcx, jsSplitCh_no_sep hcy]
  cases lab with
  | none =>
    simp only [labelSuffix]
    have h1 : jsIndexOf (code :: (sf ++ '@' :: (toB36 cx0 ++ ',' :: toB36 cy0))) '@'
        = some (sf.length + 1) := by
      have h := @jsIndexOf_append '@' (code :: sf) (toB36 cx0 ++ ',' :: toB36 cy0) hat
      simpa using h
    have h2 : (code :: (sf ++ '@' :: (toB36 cx0 ++ ',' :: toB36 cy0))).take (sf.length + 1)
        = code :: sf := by
      have h := @take_append_cons (code :: sf) (toB36 cx0 ++ ',' :: toB36 cy0) '@'
      simpa using h
    have h3 : (code :: (sf ++ '@' :: (toB36 cx0 ++ ',' :: toB36 cy0))).drop (sf.length + 1 + 1)
        = toB36 cx0 ++ ',' :: toB36 cy0 := by
      have h := @drop_append_cons (code :: sf) (toB36 cx0 ++ ',' :: toB36 cy0) '@'
      simpa using h
    have h4 : jsIndexOf (toB36 cx0 ++ ',' :: toB36 cy0) '~' = none := jsIndexOf_none hnot
    simp only [List.append_nil, parseToken, reduceCtorEq, if_false, ite_true, h1, h2, h3, h4,
      h6, parseCoord_true, parseIntJS_toB36, List.headD_cons, List.get?_cons_succ,
      List.get?_cons_zero, Option.getD_some, List.head?_cons, List.drop_succ_cons,
      List.drop_zero, Option.some_bind]
  | some l =>
    simp only [labelSuffix]
    have h1 : jsIndexOf (code :: (sf ++ '@' :: (toB36 cx0 ++ ',' :: (toB36 cy0 ++
        '~' :: encodeURIComponentJS l)))) '@' = some (sf.length + 1) := by
      have h := @jsIndexOf_append '@' (code :: sf)
        (toB36 cx0 ++ ',' :: (toB36 cy0 ++ '~' :: encodeURIComponentJS l)) hat
      simpa using h
    have h2 : (code :: (sf ++ '@' :: (toB36 cx0 ++ ',' :: (toB36 cy0 ++
        '~' :: encodeURIComponentJS l)))).take (sf.length + 1) = code :: sf := by
      have h := @take_append_cons (code :: sf)
        (toB36 cx0 ++ ',' :: (toB36 cy0 ++ '~' :: encodeURIComponentJS l)) '@'
      simpa using h
    have h3 : (code :: (sf ++ '@' :: (toB36 cx0 ++ ',' :: (toB36 cy0 ++
        '~' :: encodeURIComponentJS l)))).drop (sf.length + 1 + 1)
        = toB36 cx0 ++ ',' :: (toB36 cy0 ++ '~' :: encodeURIComponentJS l) := by
      have h := @drop_append_cons (code :: sf)
        (toB36 cx0 ++ ',' :: (toB36 cy0 ++ '~' :: encodeURIComponentJS l)) '@'
      simpa using h
    have h4 : jsIndexOf (toB36 cx0 ++ ',' :: (toB36 cy0 ++ '~' :: encodeURIComponentJS l)) '~'
        = some ((toB36 cx0).length + ((toB36 cy0).length + 1)) := by
      have h := @jsIndexOf_append '~' (toB36 cx0 ++ ',' :: toB36 cy0)
        (encodeURIComponentJS l) hnot
      rw [List.append_assoc] at h
      simpa using h
    have h5 : (toB36 cx0 ++ ',' :: (toB36 cy0 ++ '~' :: encodeURIComponentJS l)).take
        ((toB36 cx0).length + ((toB36 cy0).length + 1)) = toB36 cx0 ++ ',' :: toB36 cy0 := by
      have h := @take_append_cons (toB36 cx0 ++ ',' :: toB36 cy0) (encodeURIComponentJS l) '~'
      rw [List.append_assoc] at h
      simpa using h
    have h5d : (toB36 cx0 ++ ',' :: (toB36 cy0 ++ '~' :: encodeURIComponentJS l)).drop
        ((toB36 cx0).length + ((toB36 cy0).length + 1) + 1) = encodeURIComponentJS l := by
      have h := @drop_append_cons (toB36 cx0 ++ ',' :: toB36 cy0) (encodeURIComponentJS l) '~'
      rw [List.append_assoc] at h
      simpa using h
    simp only [parseToken, reduceCtorEq, if_false, ite_true, h1, h2, h3, h4, h5, h5d,
      decode_encodeURIComponent, h6, parseCoord_true, parseIntJS_toB36, List.headD_cons,
      List.get?_cons_succ, List.get?_cons_zero, Option.getD_some, List.head?_cons,
      List.drop_succ_cons, List.drop_zero, Option.some_bind]

theorem parseToken_serializeBlockToken (c : ℚ) (hc : 0 < c) (b : Block) (cx0 cy0 : ℕ)
    (hk : b.kind = .flag ∨ b.kind = .hq ∨ b.kind = .city ∨ b.kind = .resource ∨
      b.kind = .trap ∨ b.kind = .custom)
    (hwh : b.kind = .custom → b.widthOr ≤ 30 ∧ b.heightOr ≤ 30)
    (hl : b.left = (cx0 : ℚ) * c) (ht : b.top = (cy0 : ℚ) * c) :
    parseToken true (serializeBlockToken c b) = .ok [decodedOfBlock b cx0 cy0] := by
  have hq1 : ((KIND_TO_CODE b.kind).getD 'B') ≠ '@' := (code_not_at hk).1
  rw [serializeBlockToken_eq c hc b cx0 cy0 hl ht]
  by_cases hcust : b.kind = .custom
  · obtain ⟨hw30, hh30⟩ := hwh hcust
    have hxw : 'x' ∉ toB36 b.widthOr := toB36_small_no_x hw30
    have hxh : 'x' ∉ toB36 b.heightOr := toB36_small_no_x hh30
    have hsf : '@' ∉ toB36 b.widthOr ++ 'x' :: toB36 b.heightOr :=
      notmem_append (fun hm => (mem_toB36_ne hm).2.2.2.1 rfl)
        (notmem_cons (by decide) (fun hm => (mem_toB36_ne hm).2.2.2.1 rfl))
    rw [if_pos hcust, parseToken_spine _ _ _ _ _ hq1 hsf]
    have hinc : jsIncludes (toB36 b.widthOr ++ 'x' :: toB36 b.heightOr) 'x' = true :=
      jsIncludes_iff.mpr (List.mem_append.mpr (Or.inr (List.mem_cons_self _ _)))
    have hsplit : jsSplitCh 'x' (toB36 b.widthOr ++ 'x' :: toB36 b.heightOr)
        = [toB36 b.widthOr, toB36 b.heightOr] := by
      rw [jsSplitCh_append hxw, jsSplitCh_no_sep hxh]
    have hck : (CODE_TO_KIND ((KIND_TO_CODE Kind.custom).getD 'B')).getD Kind.block
        = Kind.custom := rfl
    simp only [hcust, hck, reduceCtorEq, if_false, hinc, hsplit, List.headD_cons,
      List.get?_cons_succ, List.get?_cons_zero, Option.getD_some, parseIntJS_toB36,
      decodedOfBlock, ite_true, and_true, and_self, eq_self_iff_true, if_true]
  · have hsf : '@' ∉ toB36 b.size := fun hm => (mem_toB36_ne hm).2.2.2.1 rfl
    rw [if_neg hcust, parseToken_spine _ _ _ _ _ hq1 hsf]
    simp only [code_roundtrip hk, Option.getD_some, if_neg (code_ne_block hk),
      if_neg hcust, parseIntJS_toB36, decodedOfBlock,
      if_neg (fun hh : (b.kind = Kind.custom ∧ jsIncludes (toB36 b.size) 'x' = true) =>
        hcust hh.1)]

theorem semicolon_not_mem_serializeBlockToken (c : ℚ) (hc : 0 < c) (b : Block)
    (cx0 cy0 : ℕ)
    (hk : b.kind = .flag ∨ b.kind = .hq ∨ b.kind = .city ∨ b.kind = .resource ∨
      b.kind = .trap ∨ b.kind = .custom)
    (hl : b.left = (cx0 : ℚ) * c) (ht : b.top = (cy0 : ℚ) * c) :
    ';' ∉ serializeBlockToken c b := by
  rw [serializeBlockToken_eq c hc b cx0 cy0 hl ht]
  have hb36 : ∀ n : ℕ, ';' ∉ toB36 n := fun n hm => (mem_toB36_ne hm).1 rfl
  apply notmem_cons (fun he => (code_not_at hk).2 he.symm)
  apply notmem_append
  · by_cases hcust : b.kind = .custom
    · rw [if_pos hcust]
      exact notmem_append (hb36 _) (notmem_cons (by decide) (hb36 _))
    · rw [if_neg hcust]
      exact hb36 _
  · apply notmem_cons (by decide)
    apply notmem_append (hb36 _)
    apply notmem_cons (by decide)
    apply notmem_append (hb36 _)
    cases persistedLabel b with
    | none => simp [labelSuffix]
    | some l =>
      simp only [labelSuffix]
      exact notmem_cons (by decide) (semicolon_not_mem_encodeURIComponent l)

theorem parseTokens_forall2 {ts : List JStr} {ds : List DecodedBlock}
    (h : List.Forall₂ (fun t d => parseToken true t = .ok [d]) ts ds) :
    parseTokens true ts = .ok ds := by
  induction h with
  | nil => rfl
  | cons h1 _ ih =>
    rw [parseTokens, h1, ih]
    rfl

theorem tokens_decode (c : ℚ) (hc : 0 < c) :
    ∀ l : List Block, (∀ b ∈ l, ValidBlock c b ∧ b.immutable = false) →
      ∃ ds : List DecodedBlock,
        List.Forall₂ (fun t d => parseToken true t = .ok [d])
          (l.map (serializeBlockToken c)) ds ∧
        List.Forall₂ (decodedMatches c) l ds := by
  intro l
  induction l with
  | nil => exact fun _ => ⟨[], List.Forall₂.nil, List.Forall₂.nil⟩
  | cons b rest ih =>
    intro h
    obtain ⟨hvb, himm⟩ := h b (List.mem_cons_self _ _)
    obtain ⟨hk6, hs1, hs30, hcwh, cx0, cy0, hl, ht⟩ := hvb himm
    have hwh : b.kind = .custom → b.widthOr ≤ 30 ∧ b.heightOr ≤ 30 := by
      intro hcust
      obtain ⟨hw1, hw30, hh1, hh30⟩ := hcwh hcust
      unfold Block.widthOr Block.heightOr
      constructor
      · split
        · exact hs30
        · exact hw30
      · split
        · exact hs30
        · exact hh30
    have htok := parseToken_serializeBlockToken c hc b cx0 cy0 hk6 hwh hl ht
    have hmatch : decodedMatches c b (decodedOfBlock b cx0 cy0) := by
      unfold decodedMatches decodedOfBlock
      by_cases hcust : b.kind = .custom
      · rw [if_pos hcust]
        refine ⟨hcust.symm, fun _ => ⟨rfl, rfl, rfl⟩, fun hn => absurd hcust hn,
          ?_, ?_, rfl⟩
        · simp [hl]
        · simp [ht]
      · rw [if_neg hcust]
        refine ⟨rfl, fun hcon => absurd hcon hcust, fun _ => rfl, ?_, ?_, rfl⟩
        · simp [hl]
        · simp [ht]
    obtain ⟨ds, h1, h2⟩ := ih (fun b' hb' => h b' (List.mem_cons_of_mem _ hb'))
    exact ⟨decodedOfBlock b cx0 cy0 :: ds, List.Forall₂.cons htok h1,
      List.Forall₂.cons hmatch h2⟩

theorem deserializeState_v2 (B : JStr) (R : Option JStr) :
    deserializeState { v := some (jstr "2"), b := some B, r := R } =
      match parseTokens true (jsSplitCh ';' B) with
      | .error e => .error e
      | .ok blocks => .ok { blocks := blocks, red := decodeRed (R.getD []) true,
                            ver := jstr "2" } := by
  rfl

/-- C1: for every board state built purely from valid operations
(non-immutable blocks of user-creatable kinds with snapped integer cell
positions and sizes within limits, any valid user paint set),
`deserializeState` applied to `serializeState` succeeds and yields an
equivalent state: per block the same kind, size (width/height for custom),
cell position and persisted label, and a decoded paint set with exactly the
original membership. -/
theorem deserializeState_serializeState (c : ℚ) (hc : 0 < c) (st : BoardState)
    (hv : ∀ b ∈ st.blocks, ValidBlock c b) (hp : ValidPaint st.userPaint) :
    ∃ d : DecodedState,
      deserializeState (serializeState c st) = .ok d ∧
      d.ver = jstr "2" ∧
      List.Forall₂ (decodedMatches c)
        (st.blocks.filter (fun b => !b.immutable)) d.blocks ∧
      (∀ q : ℤ × ℤ, q ∈ d.red ↔ q ∈ st.userPaint) := by
  have hfb : ∀ b ∈ st.blocks.filter (fun b => !b.immutable),
      ValidBlock c b ∧ b.immutable = false := by
    intro b hb
    rw [List.mem_filter] at hb
    exact ⟨hv b hb.1, by simpa using hb.2⟩
  obtain ⟨ds, hds1, hds2⟩ := tokens_decode c hc _ hfb
  have hpt : parseTokens true (jsSplitCh ';'
      (jsJoin ';' ((st.blocks.filter (fun b => !b.immutable)).map
        (serializeBlockToken c)))) = .ok ds := by
    cases hbe : st.blocks.filter (fun b => !b.immutable) with
    | nil =>
      rw [hbe] at hds1
      cases hds1
      rfl
    | cons b bl =>
      rw [hbe] at hds1
      have hno : ∀ p ∈ (b :: bl).map (serializeBlockToken c), ';' ∉ p := by
        intro p hp'
        rw [List.mem_map] at hp'
        obtain ⟨b', hb', rfl⟩ := hp'
        have hb'' : b' ∈ st.blocks.filter (fun b => !b.immutable) := by
          rw [hbe]
          exact hb'
        obtain ⟨hvb, himm⟩ := hfb b' hb''
        obtain ⟨hk6, hs1, hs30, hcwh, cx0, cy0, hl, ht⟩ := hvb himm
        exact semicolon_not_mem_serializeBlockToken c hc b' cx0 cy0 hk6 hl ht
      rw [jsSplitCh_join (by simp) hno]
      exact parseTokens_forall2 hds1
  have hred : ∀ q : ℤ × ℤ,
      q ∈ decodeRed ((if encodeRedRLE st.userPaint true ≠ [] then
        some (encodeRedRLE st.userPaint true) else none).getD []) true ↔
        q ∈ st.userPaint := by
    intro q
    by_cases hr : encodeRedRLE st.userPaint true = []
    · rw [if_neg (by simp [hr])]
      show q ∈ decodeRed [] true ↔ _
      rw [← hr]
      exact decodeRed_encodeRedRLE hp q
    · rw [if_pos hr]
      show q ∈ decodeRed (encodeRedRLE st.userPaint true) true ↔ _
      exact decodeRed_encodeRedRLE hp q
  refine ⟨{ blocks := ds,
            red := decodeRed ((if encodeRedRLE st.userPaint true ≠ [] then
              some (encodeRedRLE st.userPaint true) else none).getD []) true,
            ver := jstr "2" }, ?_, rfl, hds2, hred⟩
  show deserializeState (serializeState c st) = _
  rw [show serializeState c st =
      { v := some (jstr "2"),
        b := some (jsJoin ';' ((st.blocks.filter (fun b => !b.immutable)).map
          (serializeBlockToken c))),
        r := if encodeRedRLE st.userPaint true ≠ [] then
          some (encodeRedRLE st.userPaint true) else none } from rfl,
    deserializeState_v2, hpt]

theorem deserializeState_serializeState_witness :
    (0 : ℚ) < 48 ∧
    (∀ b ∈ [({ kind := .trap, size := 3, left := 240, top := 480 } : Block),
            { kind := .custom, size := 4, width := 4, height := 7, left := 96,
              top := 144, label := jstr "Outpost" }],
      ValidBlock 48 b) ∧
    ValidPaint [((0 : ℤ), (0 : ℤ)), (1, 0), (2, 0), (5, 1)] ∧
    ∃ d : DecodedState,
      deserializeState (serializeState 48
        { blocks := [{ kind := .trap, size := 3, left := 240, top := 480 },
                     { kind := .custom, size := 4, width := 4, height := 7,
                       left := 96, top := 144, label := jstr "Outpost" }],
          userPaint := [((0 : ℤ), (0 : ℤ)), (1, 0), (2, 0), (5, 1)] }) = .ok d ∧
      d.ver = jstr "2" ∧
      List.Forall₂ (decodedMatches 48)
        (List.filter (fun b => !b.immutable)
          [{ kind := .trap, size := 3, left := 240, top := 480 },
           { kind := .custom, size := 4, width := 4, height := 7,
             left := 96, top := 144, label := jstr "Outpost" }]) d.blocks ∧
      (∀ q : ℤ × ℤ, q ∈ d.red ↔ q ∈ [((0 : ℤ), (0 : ℤ)), (1, 0), (2, 0), (5, 1)]) := by
  have hv : ∀ b ∈ [({ kind := .trap, size := 3, left := 240, top := 480 } : Block),
      { kind := .custom, size := 4, width := 4, height := 7, left := 96,
        top := 144, label := jstr "Outpost" }], ValidBlock 48 b := by
    intro b hb
    rcases List.mem_cons.mp hb with rfl | hb
    · exact fun _ => ⟨Or.inr (Or.inr (Or.inr (Or.inr (Or.inl rfl)))), by norm_num,
        by norm_num, fun hcon => absurd hcon (by decide), 5, 10, by norm_num, by norm_num⟩
    · rcases List.mem_cons.mp hb with rfl | hb
      · exact fun _ => ⟨Or.inr (Or.inr (Or.inr (Or.inr (Or.inr rfl)))), by norm_num,
          by norm_num, fun _ => ⟨by norm_num, by norm_num, by norm_num, by norm_num⟩,
          2, 3, by norm_num, by norm_num⟩
      · simp at hb
  have hpv : ValidPaint [((0 : ℤ), (0 : ℤ)), (1, 0), (2, 0), (5, 1)] :=
    ⟨by decide, by decide⟩
  exact ⟨by norm_num, hv, hpv,
    deserializeState_serializeState 48 (by norm_num) _ hv hpv⟩
